import Mathlib

/-!
# Monte Carlo pricer for European options (`mc_core.cpp`)

A shallow embedding of `mc_price_european` and the properties of its result.

Arithmetic is exact: a `double` is a number of an ordered field `F`, one of the two
infinities, or NaN.  No rounding and no overflow are modelled; the only way a non-number
appears from numbers is the way IEEE 754 prescribes for exact operands (a zero divisor, the
square root of a negative number).  Signed zeros are not distinguished: every divisor of this
program is `static_cast<double>(n_paths)` or its square root, never a negative zero.

`std::exp` and `std::sqrt` on numbers, and the seeded generator with its standard-normal
sampler (`std::mt19937`, `std::normal_distribution<double>`), belong to the C++ standard
library; the embedding takes them as parameters.  The theorems about real arithmetic take
`Real.exp` and `Real.sqrt` for them and hold for every sampler.

`n_paths` (a `std::size_t`) and `seed` (an `unsigned int`) are natural numbers; the loop
counter runs below `n_paths` and cannot wrap, and `static_cast<double>(n_paths)` is exact.
-/

namespace MCCore

/-- A `double` in exact arithmetic: a number, plus or minus infinity, or NaN. -/
inductive Dbl (F : Type) where
  | num (x : F)
  | pinf
  | ninf
  | nan
deriving DecidableEq

/-- The struct `MCResult` of `mc_core.hpp`. -/
structure MCResult (F : Type) where
  price : Dbl F
  std_error : Dbl F

/-- The random source of a call: `seed_rng seed` is the state of `rng` and `normal` right after
`std::mt19937 rng(seed); std::normal_distribution<double> normal(0.0, 1.0);`, and
`normal g` is one evaluation of `normal(rng)` in state `g`: the variate drawn, which is a
number, and the state after it. -/
structure Sampler (F G : Type) where
  seed_rng : Nat → G
  normal : G → F × G

namespace Dbl

variable {F : Type} [LinearOrderedField F]

/-- Unary minus. -/
def neg : Dbl F → Dbl F
  | num x => num (-x)
  | pinf => ninf
  | ninf => pinf
  | nan => nan

/-- Addition: opposite infinities give NaN. -/
def add : Dbl F → Dbl F → Dbl F
  | num x, num y => num (x + y)
  | nan, _ => nan
  | _, nan => nan
  | pinf, ninf => nan
  | ninf, pinf => nan
  | pinf, _ => pinf
  | ninf, _ => ninf
  | num _, pinf => pinf
  | num _, ninf => ninf

/-- Subtraction `a - b`. -/
def sub (a b : Dbl F) : Dbl F := add a (neg b)

/-- The infinity carrying the sign of `x`, NaN when `x` is zero. -/
def signedInf (x : F) : Dbl F :=
  if 0 < x then pinf else if x < 0 then ninf else nan

/-- Multiplication: zero times an infinity gives NaN. -/
def mul : Dbl F → Dbl F → Dbl F
  | num x, num y => num (x * y)
  | nan, _ => nan
  | _, nan => nan
  | num x, pinf => signedInf x
  | num x, ninf => signedInf (-x)
  | pinf, num y => signedInf y
  | ninf, num y => signedInf (-y)
  | pinf, pinf => pinf
  | ninf, ninf => pinf
  | pinf, ninf => ninf
  | ninf, pinf => ninf

/-- Division `a / b`: a number over zero gives the infinity of its sign, zero over zero and
infinity over infinity give NaN. -/
def div : Dbl F → Dbl F → Dbl F
  | num x, num y => if y = 0 then signedInf x else num (x / y)
  | nan, _ => nan
  | _, nan => nan
  | num _, pinf => num 0
  | num _, ninf => num 0
  | pinf, num y => if y < 0 then ninf else pinf
  | ninf, num y => if y < 0 then pinf else ninf
  | pinf, pinf => nan
  | pinf, ninf => nan
  | ninf, pinf => nan
  | ninf, ninf => nan

/-- The comparison `a < b`: false as soon as an operand is NaN. -/
def lt : Dbl F → Dbl F → Bool
  | num x, num y => decide (x < y)
  | nan, _ => false
  | _, nan => false
  | ninf, ninf => false
  | ninf, _ => true
  | pinf, _ => false
  | num _, pinf => true
  | num _, ninf => false

/-- The function `std::max(a, b)`, which is `(a < b) ? b : a`. -/
def max (a b : Dbl F) : Dbl F := if lt a b then b else a

/-- The function `std::exp`, from the exponential `e` on numbers.  A number goes to the
number `e x`: rounding and underflow are a matter of `e`, an overflow to infinity is not
modelled. -/
def exp (e : F → F) : Dbl F → Dbl F
  | num x => num (e x)
  | pinf => pinf
  | ninf => num 0
  | nan => nan

/-- The function `std::sqrt`, from the square root `s` on non-negative numbers: NaN on a
negative operand. -/
def sqrt (s : F → F) : Dbl F → Dbl F
  | num x => if x < 0 then nan else num (s x)
  | pinf => pinf
  | ninf => nan
  | nan => nan

/-- The conversion `static_cast<double>(n)` of a `std::size_t`. -/
def ofNat (n : Nat) : Dbl F := num (n : F)

end Dbl

open Dbl

section Pricer

variable {F G : Type} [LinearOrderedField F]

/-- The state carried across the iterations of the loop: the generator and the two
accumulators. -/
structure LoopState (F G : Type) where
  rng : G
  sum : Dbl F
  sum_sq : Dbl F

/-- The terminal price of one path: `ST = S0 * std::exp(drift + diffusion_scale * Z)`. -/
def terminal_price (e : F → F) (S0 drift diffusion_scale Z : Dbl F) : Dbl F :=
  mul S0 (Dbl.exp e (add drift (mul diffusion_scale Z)))

/-- The payoff of one path: `std::max(ST - K, 0.0)` for a call, `std::max(K - ST, 0.0)` for a
put. -/
def payoff (K : Dbl F) (is_call : Bool) (ST : Dbl F) : Dbl F :=
  if is_call then Dbl.max (sub ST K) (num 0) else Dbl.max (sub K ST) (num 0)

/-- The discounted payoff of the path that draws `Z`: `discounted = disc_factor * payoff`. -/
def discounted_payoff (e : F → F) (S0 K disc_factor drift diffusion_scale : Dbl F)
    (is_call : Bool) (Z : Dbl F) : Dbl F :=
  mul disc_factor (payoff K is_call (terminal_price e S0 drift diffusion_scale Z))

/-- One iteration of the loop body: draw `Z`, price the path, add to `sum` and `sum_sq`. -/
def path_step (e : F → F) (smp : Sampler F G) (S0 K disc_factor drift diffusion_scale : Dbl F)
    (is_call : Bool) (st : LoopState F G) : LoopState F G :=
  let draw := smp.normal st.rng
  let discounted :=
    discounted_payoff e S0 K disc_factor drift diffusion_scale is_call (num draw.1)
  { rng := draw.2
    sum := add st.sum discounted
    sum_sq := add st.sum_sq (mul discounted discounted) }

/-- The loop `for (i = 0; i < n_paths; ++i)`, by the number of iterations still to run. -/
def path_loop (e : F → F) (smp : Sampler F G) (S0 K disc_factor drift diffusion_scale : Dbl F)
    (is_call : Bool) : Nat → LoopState F G → LoopState F G
  | 0, st => st
  | k + 1, st =>
    path_loop e smp S0 K disc_factor drift diffusion_scale is_call k
      (path_step e smp S0 K disc_factor drift diffusion_scale is_call st)

/-- The constant `disc_factor = std::exp(-r * T)`. -/
def disc_factor (e : F → F) (r T : Dbl F) : Dbl F :=
  Dbl.exp e (mul (neg r) T)

/-- The constant `drift = (r - 0.5 * sigma * sigma) * T`. -/
def drift (r sigma T : Dbl F) : Dbl F :=
  mul (sub r (mul (mul (num 0.5) sigma) sigma)) T

/-- The constant `diffusion_scale = sigma * std::sqrt(T)`. -/
def diffusion_scale (s : F → F) (sigma T : Dbl F) : Dbl F :=
  mul sigma (Dbl.sqrt s T)

/-- The state after the loop of a call: `n_paths` iterations from the generator seeded with
`seed` and `sum = 0.0`, `sum_sq = 0.0`. -/
def simulate (e s : F → F) (smp : Sampler F G) (S0 K r sigma T : Dbl F)
    (n_paths : Nat) (seed : Nat) (is_call : Bool) : LoopState F G :=
  path_loop e smp S0 K (disc_factor e r T) (drift r sigma T) (diffusion_scale s sigma T)
    is_call n_paths { rng := smp.seed_rng seed, sum := num 0, sum_sq := num 0 }

/-- The body of `mc_price_european`, returning the result together with the divisors of the
divisions it evaluates, in program order: `sum / n`, `sum_sq / n`, and `std_dev / std::sqrt(n)`
when the branch `n_paths > 0` is taken. -/
def mc_price_european_traced (e s : F → F) (smp : Sampler F G) (S0 K r sigma T : Dbl F)
    (n_paths : Nat) (seed : Nat) (is_call : Bool) : MCResult F × List (Dbl F) :=
  let fin := simulate e s smp S0 K r sigma T n_paths seed is_call
  let n : Dbl F := Dbl.ofNat n_paths
  let mean := div fin.sum n
  let mean_sq := div fin.sum_sq n
  let variance₀ := sub mean_sq (mul mean mean)
  let variance := if lt variance₀ (num 0) then num 0 else variance₀
  let std_dev := if lt (num 0) variance then Dbl.sqrt s variance else num 0
  let std_error := if n_paths > 0 then div std_dev (Dbl.sqrt s n) else num 0
  ({ price := mean, std_error := std_error },
    [n, n] ++ (if n_paths > 0 then [Dbl.sqrt s n] else []))

/-- The function `mc_price_european` of `mc_core.cpp`. -/
def mc_price_european (e s : F → F) (smp : Sampler F G) (S0 K r sigma T : Dbl F)
    (n_paths : Nat) (seed : Nat) (is_call : Bool) : MCResult F :=
  (mc_price_european_traced e s smp S0 K r sigma T n_paths seed is_call).1

/-- The divisors of the divisions a call evaluates, in program order. -/
def mc_divisors (e s : F → F) (smp : Sampler F G) (S0 K r sigma T : Dbl F)
    (n_paths : Nat) (seed : Nat) (is_call : Bool) : List (Dbl F) :=
  (mc_price_european_traced e s smp S0 K r sigma T n_paths seed is_call).2

/-- The first `n` successive draws of the sampler from state `g`. -/
def normal_draws (smp : Sampler F G) : Nat → G → List F
  | 0, _ => []
  | k + 1, g => (smp.normal g).1 :: normal_draws smp k (smp.normal g).2

end Pricer

/-- A sampler for concrete evaluation: the state is a counter, the draw from state `g` is
`g - 3`, so that seed `0` yields `-3, -2, -1, 0, 1, ...`. -/
def counterSampler (F : Type) [LinearOrderedField F] : Sampler F Nat where
  seed_rng := fun seed => seed
  normal := fun g => ((g : F) - 3, g + 1)

/-- The sampler `smp` with a count of the evaluations of `normal(rng)`: the generator state
carries the number of draws taken since the seeding. -/
def countingSampler {F G : Type} (smp : Sampler F G) : Sampler F (G × Nat) where
  seed_rng := fun seed => (smp.seed_rng seed, 0)
  normal := fun g => ((smp.normal g.1).1, ((smp.normal g.1).2, g.2 + 1))

/-- The loop `for (std::size_t i = 0; i < n_paths; ++i)` with its counter: from the counter
value `i`, with `iters` iterations run so far and the state `st`, it tests `i < n_paths`, runs
the body and increments `i`.  It returns the number of iterations run and the final state. -/
def path_loop_for {F G : Type} [LinearOrderedField F] (e : F → F) (smp : Sampler F G)
    (S0 K disc_factor drift diffusion_scale : Dbl F) (is_call : Bool) (n_paths : Nat)
    (i iters : Nat) (st : LoopState F G) : Nat × LoopState F G :=
  if i < n_paths then
    path_loop_for e smp S0 K disc_factor drift diffusion_scale is_call n_paths (i + 1)
      (iters + 1) (path_step e smp S0 K disc_factor drift diffusion_scale is_call st)
  else (iters, st)
termination_by n_paths - i

/-- The value of `variance` right after `double variance = mean_sq - mean * mean;`, before the
test `variance < 0.0`. -/
def variance_before_clamp {F G : Type} [LinearOrderedField F] (e s : F → F)
    (smp : Sampler F G) (S0 K r sigma T : Dbl F) (n_paths : Nat) (seed : Nat)
    (is_call : Bool) : Dbl F :=
  let fin := simulate e s smp S0 K r sigma T n_paths seed is_call
  let n : Dbl F := Dbl.ofNat n_paths
  let mean := div fin.sum n
  let mean_sq := div fin.sum_sq n
  sub mean_sq (mul mean mean)

/-- The two-pass population variance the spec allows in place of the accumulators: a first
pass for the mean, a second for the mean of the squared deviations from it.  This follows the
spec, not `mc_core.cpp`. -/
def two_pass_variance {F : Type} [LinearOrderedField F] (ds : List F) : F :=
  let m := ds.sum / (ds.length : F)
  (ds.map (fun d => (d - m) ^ 2)).sum / (ds.length : F)

/-- The state of Welford's online algorithm: the number of values seen, their running mean and
the running sum of squared deviations.  This follows the spec, not `mc_core.cpp`. -/
structure WelfordState (F : Type) where
  count : Nat
  mean : F
  m2 : F

/-- One update of Welford's online algorithm with the value `x`.  This follows the spec, not
`mc_core.cpp`. -/
def welford_update {F : Type} [LinearOrderedField F] (w : WelfordState F) (x : F) :
    WelfordState F :=
  let count := w.count + 1
  let delta := x - w.mean
  let mean := w.mean + delta / (count : F)
  { count := count, mean := mean, m2 := w.m2 + delta * (x - mean) }

/-- The state of Welford's online algorithm before any value.  This follows the spec, not
`mc_core.cpp`. -/
def welford_init (F : Type) [LinearOrderedField F] : WelfordState F :=
  { count := 0, mean := 0, m2 := 0 }

/-- The population variance by Welford's online algorithm, the drop-in replacement the spec
allows for the accumulators.  This follows the spec, not `mc_core.cpp`. -/
def welford_variance {F : Type} [LinearOrderedField F] (ds : List F) : F :=
  (ds.foldl welford_update (welford_init F)).m2 /
    ((ds.foldl welford_update (welford_init F)).count : F)

/-- The sampler all of whose draws are the value `z`, for concrete evaluation. -/
def constSampler {F : Type} (z : F) : Sampler F Unit where
  seed_rng := fun _ => ()
  normal := fun _ => (z, ())

/-! ## Arithmetic on numbers -/

section NumLemmas

variable {F : Type} [LinearOrderedField F]

@[simp] theorem neg_num (x : F) : neg (num x) = num (-x) := rfl

@[simp] theorem add_num (x y : F) : add (num x) (num y) = num (x + y) := rfl

@[simp] theorem sub_num (x y : F) : sub (num x) (num y) = num (x - y) := by
  simp [sub, sub_eq_add_neg]

@[simp] theorem mul_num (x y : F) : mul (num x) (num y) = num (x * y) := rfl

@[simp] theorem lt_num (x y : F) : lt (num x) (num y) = decide (x < y) := rfl

@[simp] theorem exp_num (e : F → F) (x : F) : Dbl.exp e (num x) = num (e x) := rfl

theorem div_num_of_ne (x : F) {y : F} (hy : y ≠ 0) : div (num x) (num y) = num (x / y) := by
  simp [div, hy]

theorem div_zero_zero : div (num (0 : F)) (num 0) = nan := by
  simp [div, signedInf]

theorem sqrt_num_of_nonneg (s : F → F) {x : F} (hx : 0 ≤ x) :
    Dbl.sqrt s (num x) = num (s x) := by
  simp [Dbl.sqrt, not_lt.mpr hx]

theorem sqrt_num_of_neg (s : F → F) {x : F} (hx : x < 0) : Dbl.sqrt s (num x) = nan := by
  simp [Dbl.sqrt, hx]

theorem max_num_zero (x : F) : Dbl.max (num x) (num 0) = num (Max.max x 0) := by
  unfold Dbl.max
  by_cases h : x < 0
  · simp [h, max_eq_right h.le]
  · simp [h, max_eq_left (not_lt.mp h)]

@[simp] theorem add_nan_right (a : Dbl F) : add a nan = nan := by
  cases a <;> rfl

@[simp] theorem mul_nan_right (a : Dbl F) : mul a nan = nan := by
  cases a <;> rfl

@[simp] theorem mul_nan_left (a : Dbl F) : mul nan a = nan := by
  cases a <;> rfl

@[simp] theorem add_nan_left (a : Dbl F) : add nan a = nan := by
  cases a <;> rfl

@[simp] theorem sub_nan_left (a : Dbl F) : sub nan a = nan := by
  cases a <;> rfl

@[simp] theorem sub_nan_right (a : Dbl F) : sub a nan = nan := by
  cases a <;> rfl

@[simp] theorem lt_nan_left (a : Dbl F) : lt nan a = false := by
  cases a <;> rfl

@[simp] theorem lt_nan_right (a : Dbl F) : lt a nan = false := by
  cases a <;> rfl

@[simp] theorem div_nan_left (a : Dbl F) : div nan a = nan := by
  cases a <;> rfl

@[simp] theorem max_nan_left (a : Dbl F) : Dbl.max nan a = nan := by
  simp [Dbl.max]

end NumLemmas

/-! ## The loop -/

section LoopLemmas

variable {F G : Type} [LinearOrderedField F]

theorem path_loop_succ (e : F → F) (smp : Sampler F G) (S0 K df dr ds : Dbl F) (c : Bool)
    (k : Nat) (st : LoopState F G) :
    path_loop e smp S0 K df dr ds c (k + 1) st =
      path_loop e smp S0 K df dr ds c k (path_step e smp S0 K df dr ds c st) := rfl

/-- When the discounted payoffs of the `k` paths are the numbers `ds`, the loop adds their sum
to `sum` and the sum of their squares to `sum_sq`. -/
theorem path_loop_of_num (e : F → F) (smp : Sampler F G) (S0 K df dr dsc : Dbl F) (c : Bool) :
    ∀ (k : Nat) (st : LoopState F G) (a b : F) (ds : List F),
      (normal_draws smp k st.rng).map
          (fun z => discounted_payoff e S0 K df dr dsc c (num z)) = ds.map num →
      st.sum = num a → st.sum_sq = num b →
      (path_loop e smp S0 K df dr dsc c k st).sum = num (a + ds.sum) ∧
      (path_loop e smp S0 K df dr dsc c k st).sum_sq =
        num (b + (ds.map (fun d => d * d)).sum) := by
  intro k
  induction k with
  | zero =>
    intro st a b ds h ha hb
    cases ds with
    | nil => simp [path_loop, ha, hb]
    | cons d ds => simp [normal_draws] at h
  | succ k ih =>
    intro st a b ds h ha hb
    cases ds with
    | nil => simp [normal_draws] at h
    | cons d ds =>
      simp only [normal_draws, List.map_cons, List.cons.injEq] at h
      obtain ⟨hd, hrest⟩ := h
      have := ih (path_step e smp S0 K df dr dsc c st) (a + d) (b + d * d) ds
        (by simpa [path_step] using hrest)
        (by simp [path_step, ha, hd])
        (by simp [path_step, hb, hd])
      rw [path_loop_succ]
      simpa [add_assoc] using this

/-- When every path has the number `d z` as discounted payoff, `z` being its draw. -/
theorem path_loop_of_fun (e : F → F) (smp : Sampler F G) (S0 K df dr dsc : Dbl F) (c : Bool)
    (d : F → F) (hd : ∀ z, discounted_payoff e S0 K df dr dsc c (num z) = num (d z))
    (k : Nat) (g : G) :
    (path_loop e smp S0 K df dr dsc c k { rng := g, sum := num 0, sum_sq := num 0 }).sum =
        num (((normal_draws smp k g).map d).sum) ∧
    (path_loop e smp S0 K df dr dsc c k { rng := g, sum := num 0, sum_sq := num 0 }).sum_sq =
        num (((normal_draws smp k g).map (fun z => d z * d z)).sum) := by
  have h := path_loop_of_num e smp S0 K df dr dsc c k
    { rng := g, sum := num 0, sum_sq := num 0 } 0 0 ((normal_draws smp k g).map d)
    (by simp [List.map_map, Function.comp_def, hd]) rfl rfl
  simpa [List.map_map, Function.comp_def] using h

/-- When every path has NaN as discounted payoff, both accumulators are NaN after one
iteration or more. -/
theorem path_loop_of_nan (e : F → F) (smp : Sampler F G) (S0 K df dr dsc : Dbl F) (c : Bool)
    (hd : ∀ z, discounted_payoff e S0 K df dr dsc c (num z) = nan) :
    ∀ (k : Nat) (st : LoopState F G),
      (k = 0 → st.sum = nan ∧ st.sum_sq = nan) →
      (path_loop e smp S0 K df dr dsc c k st).sum = nan ∧
      (path_loop e smp S0 K df dr dsc c k st).sum_sq = nan := by
  intro k
  induction k with
  | zero => intro st h; simpa [path_loop] using h rfl
  | succ k ih =>
    intro st _
    rw [path_loop_succ]
    apply ih
    intro _
    simp [path_step, hd]

end LoopLemmas

/-! ## The statistics after the loop -/

section FinishLemmas

variable {G : Type}

theorem price_eq {F : Type} [LinearOrderedField F] (e s : F → F) (smp : Sampler F G)
    (S0 K r sigma T : Dbl F) (n seed : Nat) (c : Bool) :
    (mc_price_european e s smp S0 K r sigma T n seed c).price =
      div (simulate e s smp S0 K r sigma T n seed c).sum (Dbl.ofNat n) := rfl

/-- With no path the loop leaves both accumulators at zero. -/
theorem simulate_zero {F : Type} [LinearOrderedField F] (e s : F → F) (smp : Sampler F G)
    (S0 K r sigma T : Dbl F) (seed : Nat) (c : Bool) :
    simulate e s smp S0 K r sigma T 0 seed c =
      { rng := smp.seed_rng seed, sum := num 0, sum_sq := num 0 } := rfl

/-- With no path the price is `0.0 / 0.0`, which is NaN. -/
theorem price_zero_paths {F : Type} [LinearOrderedField F] (e s : F → F) (smp : Sampler F G)
    (S0 K r sigma T : Dbl F) (seed : Nat) (c : Bool) :
    (mc_price_european e s smp S0 K r sigma T 0 seed c).price = nan := by
  rw [price_eq, simulate_zero]
  simp [Dbl.ofNat, div_zero_zero]

/-- The result of a call with one path or more whose accumulators end at the numbers `a` and
`b`. -/
theorem result_of_sums (smp : Sampler ℝ G) (S0 K r sigma T : Dbl ℝ) (n seed : Nat) (c : Bool)
    (a b : ℝ) (hn : 1 ≤ n)
    (ha : (simulate Real.exp Real.sqrt smp S0 K r sigma T n seed c).sum = num a)
    (hb : (simulate Real.exp Real.sqrt smp S0 K r sigma T n seed c).sum_sq = num b) :
    (mc_price_european Real.exp Real.sqrt smp S0 K r sigma T n seed c).price = num (a / n) ∧
    (mc_price_european Real.exp Real.sqrt smp S0 K r sigma T n seed c).std_error =
      num ((if 0 < b / n - a / n * (a / n) then Real.sqrt (b / n - a / n * (a / n)) else 0) /
        Real.sqrt n) := by
  have hn0 : (n : ℝ) ≠ 0 := by positivity
  have hnpos : 0 < n := hn
  have hsq : Real.sqrt (n : ℝ) ≠ 0 := by positivity
  have hnn : (0 : ℝ) ≤ (n : ℝ) := by positivity
  refine ⟨by rw [price_eq, ha]; exact div_num_of_ne a hn0, ?_⟩
  simp only [mc_price_european, mc_price_european_traced, ha, hb, Dbl.ofNat,
    div_num_of_ne _ hn0, mul_num, sub_num, lt_num, hnpos, if_true, gt_iff_lt,
    sqrt_num_of_nonneg Real.sqrt hnn]
  by_cases hv : 0 < b / n - a / n * (a / n)
  · have h1 : ¬ (b / n - a / n * (a / n) < 0) := not_lt.mpr hv.le
    simp [hv, h1, sqrt_num_of_nonneg Real.sqrt hv.le, div_num_of_ne _ hsq]
  · by_cases h1 : b / n - a / n * (a / n) < 0
    · simp [hv, h1, div_num_of_ne _ hsq]
    · simp [hv, h1, div_num_of_ne _ hsq]

end FinishLemmas

/-! ## One path in real arithmetic -/

section PathLemmas

variable {G : Type}

theorem normal_draws_length {F : Type} (smp : Sampler F G) :
    ∀ (k : Nat) (g : G), (normal_draws smp k g).length = k := by
  intro k
  induction k with
  | zero => intro g; rfl
  | succ k ih => intro g; simp [normal_draws, ih]

theorem disc_factor_real (r T : ℝ) :
    disc_factor Real.exp (num r) (num T) = num (Real.exp (-r * T)) := by
  simp [disc_factor]

theorem drift_real (r sigma T : ℝ) :
    drift (num r) (num sigma) (num T) = num ((r - 0.5 * sigma ^ 2) * T) := by
  simp only [drift, mul_num, sub_num]
  congr 1
  ring

theorem diffusion_scale_real (sigma T : ℝ) (hT : 0 ≤ T) :
    diffusion_scale Real.sqrt (num sigma) (num T) = num (sigma * Real.sqrt T) := by
  simp [diffusion_scale, sqrt_num_of_nonneg Real.sqrt hT]

theorem diffusion_scale_neg (sigma T : ℝ) (hT : T < 0) :
    diffusion_scale Real.sqrt (num sigma) (num T) = nan := by
  simp [diffusion_scale, sqrt_num_of_neg Real.sqrt hT]

/-- The terminal price of a path on numbers, for a maturity that is not negative. -/
theorem terminal_price_real (S0 r sigma T z : ℝ) (hT : 0 ≤ T) :
    terminal_price Real.exp (num S0) (drift (num r) (num sigma) (num T))
        (diffusion_scale Real.sqrt (num sigma) (num T)) (num z) =
      num (S0 * Real.exp ((r - 0.5 * sigma ^ 2) * T + sigma * Real.sqrt T * z)) := by
  simp [terminal_price, drift_real, diffusion_scale_real sigma T hT]

/-- The discounted payoff of a path on numbers, for a maturity that is not negative. -/
theorem discounted_payoff_real (S0 K r sigma T z : ℝ) (c : Bool) (hT : 0 ≤ T) :
    discounted_payoff Real.exp (num S0) (num K) (disc_factor Real.exp (num r) (num T))
        (drift (num r) (num sigma) (num T)) (diffusion_scale Real.sqrt (num sigma) (num T))
        c (num z) =
      num (Real.exp (-r * T) *
        (if c then
          Max.max (S0 * Real.exp ((r - 0.5 * sigma ^ 2) * T + sigma * Real.sqrt T * z) - K) 0
        else
          Max.max (K - S0 * Real.exp ((r - 0.5 * sigma ^ 2) * T + sigma * Real.sqrt T * z)) 0))
    := by
  unfold discounted_payoff
  rw [terminal_price_real S0 r sigma T z hT, disc_factor_real]
  cases c <;> simp [payoff, max_num_zero]

/-- With a negative maturity `std::sqrt(T)` is NaN, and so is every discounted payoff. -/
theorem discounted_payoff_neg_maturity (S0 K r sigma T z : ℝ) (c : Bool) (hT : T < 0) :
    discounted_payoff Real.exp (num S0) (num K) (disc_factor Real.exp (num r) (num T))
        (drift (num r) (num sigma) (num T)) (diffusion_scale Real.sqrt (num sigma) (num T))
        c (num z) = nan := by
  unfold discounted_payoff terminal_price
  rw [diffusion_scale_neg sigma T hT]
  cases c <;> simp [payoff, Dbl.exp]

/-- The loop reads the sampler through the draws only: two samplers with the same `k` draws
leave the same accumulators. -/
theorem path_loop_congr_draws {F G' : Type} [LinearOrderedField F] (e : F → F)
    (smp : Sampler F G) (smp' : Sampler F G') (S0 K df dr dsc : Dbl F) (c : Bool) :
    ∀ (k : Nat) (st : LoopState F G) (st' : LoopState F G'),
      normal_draws smp k st.rng = normal_draws smp' k st'.rng →
      st.sum = st'.sum → st.sum_sq = st'.sum_sq →
      (path_loop e smp S0 K df dr dsc c k st).sum =
        (path_loop e smp' S0 K df dr dsc c k st').sum ∧
      (path_loop e smp S0 K df dr dsc c k st).sum_sq =
        (path_loop e smp' S0 K df dr dsc c k st').sum_sq := by
  intro k
  induction k with
  | zero => intro st st' _ h1 h2; exact ⟨h1, h2⟩
  | succ k ih =>
    intro st st' h h1 h2
    simp only [normal_draws, List.cons.injEq] at h
    rw [path_loop_succ, path_loop_succ]
    apply ih
    · simpa [path_step] using h.2
    · simp [path_step, h1, h.1]
    · simp [path_step, h2, h.1]

/-- The result of a call is computed from `n_paths` and the two accumulators alone. -/
theorem result_congr_sums {F G' : Type} [LinearOrderedField F] (e s : F → F)
    (smp : Sampler F G) (smp' : Sampler F G') (S0 K r sigma T : Dbl F) (n seed : Nat)
    (c : Bool)
    (h1 : (simulate e s smp S0 K r sigma T n seed c).sum =
      (simulate e s smp' S0 K r sigma T n seed c).sum)
    (h2 : (simulate e s smp S0 K r sigma T n seed c).sum_sq =
      (simulate e s smp' S0 K r sigma T n seed c).sum_sq) :
    mc_price_european e s smp S0 K r sigma T n seed c =
      mc_price_european e s smp' S0 K r sigma T n seed c := by
  simp only [mc_price_european, mc_price_european_traced, h1, h2]

/-- The result of a call with one path or more whose accumulators both end at NaN. -/
theorem result_of_nan (smp : Sampler ℝ G) (S0 K r sigma T : Dbl ℝ) (n seed : Nat) (c : Bool)
    (hn : 1 ≤ n)
    (ha : (simulate Real.exp Real.sqrt smp S0 K r sigma T n seed c).sum = nan)
    (hb : (simulate Real.exp Real.sqrt smp S0 K r sigma T n seed c).sum_sq = nan) :
    (mc_price_european Real.exp Real.sqrt smp S0 K r sigma T n seed c).price = nan ∧
    (mc_price_european Real.exp Real.sqrt smp S0 K r sigma T n seed c).std_error = num 0 := by
  have hnpos : 0 < n := hn
  have hsq : Real.sqrt (n : ℝ) ≠ 0 := by positivity
  have hnn : (0 : ℝ) ≤ (n : ℝ) := by positivity
  refine ⟨by rw [price_eq, ha]; simp, ?_⟩
  simp [mc_price_european, mc_price_european_traced, ha, hb, Dbl.ofNat, hnpos,
    sqrt_num_of_nonneg Real.sqrt hnn, div_num_of_ne _ hsq]

/-- The accumulators of a call on numbers whose paths have numbers as discounted payoffs. -/
theorem simulate_real (smp : Sampler ℝ G) (S0 K r sigma T : ℝ) (n seed : Nat) (c : Bool)
    (d : ℝ → ℝ)
    (hd : ∀ z, discounted_payoff Real.exp (num S0) (num K)
      (disc_factor Real.exp (num r) (num T)) (drift (num r) (num sigma) (num T))
      (diffusion_scale Real.sqrt (num sigma) (num T)) c (num z) = num (d z)) :
    (simulate Real.exp Real.sqrt smp (num S0) (num K) (num r) (num sigma) (num T)
        n seed c).sum = num (((normal_draws smp n (smp.seed_rng seed)).map d).sum) ∧
    (simulate Real.exp Real.sqrt smp (num S0) (num K) (num r) (num sigma) (num T)
        n seed c).sum_sq =
      num (((normal_draws smp n (smp.seed_rng seed)).map (fun z => d z * d z)).sum) :=
  path_loop_of_fun Real.exp smp (num S0) (num K) _ _ _ c d hd n (smp.seed_rng seed)

/-- The accumulators of a call on numbers all of whose paths have the number `d` as
discounted payoff. -/
theorem simulate_const (smp : Sampler ℝ G) (S0 K r sigma T : ℝ) (n seed : Nat) (c : Bool)
    (d : ℝ)
    (hd : ∀ z, discounted_payoff Real.exp (num S0) (num K)
      (disc_factor Real.exp (num r) (num T)) (drift (num r) (num sigma) (num T))
      (diffusion_scale Real.sqrt (num sigma) (num T)) c (num z) = num d) :
    (simulate Real.exp Real.sqrt smp (num S0) (num K) (num r) (num sigma) (num T)
        n seed c).sum = num (n * d) ∧
    (simulate Real.exp Real.sqrt smp (num S0) (num K) (num r) (num sigma) (num T)
        n seed c).sum_sq = num (n * (d * d)) := by
  have h := simulate_real smp S0 K r sigma T n seed c (fun _ => d) hd
  simpa [List.map_const', List.sum_replicate, normal_draws_length] using h

/-- The accumulators of a call on numbers with a negative maturity and one path or more. -/
theorem simulate_neg_maturity (smp : Sampler ℝ G) (S0 K r sigma T : ℝ) (n seed : Nat)
    (c : Bool) (hn : 1 ≤ n) (hT : T < 0) :
    (simulate Real.exp Real.sqrt smp (num S0) (num K) (num r) (num sigma) (num T)
        n seed c).sum = nan ∧
    (simulate Real.exp Real.sqrt smp (num S0) (num K) (num r) (num sigma) (num T)
        n seed c).sum_sq = nan :=
  path_loop_of_nan Real.exp smp (num S0) (num K) _ _ _ c
    (fun z => discounted_payoff_neg_maturity S0 K r sigma T z c hT) n _
    (fun h => absurd h (by omega))

/-- The value the claims give to `std_dev` is not negative. -/
theorem std_dev_nonneg (v : ℝ) : 0 ≤ (if 0 < v then Real.sqrt v else 0) := by
  split
  · exact Real.sqrt_nonneg v
  · exact le_refl 0

/-- With one path or more, on numbers with a maturity that is not negative, the price is a
number that is not negative. -/
theorem price_nonneg_of_pos (smp : Sampler ℝ G) (S0 K r sigma T : ℝ) (n seed : Nat) (c : Bool)
    (hn : 1 ≤ n) (hT : 0 ≤ T) :
    ∃ x : ℝ, (mc_price_european Real.exp Real.sqrt smp (num S0) (num K) (num r) (num sigma)
      (num T) n seed c).price = num x ∧ 0 ≤ x := by
  obtain ⟨ha, hb⟩ := simulate_real smp S0 K r sigma T n seed c _
    (fun z => discounted_payoff_real S0 K r sigma T z c hT)
  refine ⟨_, (result_of_sums smp _ _ _ _ _ n seed c _ _ hn ha hb).1, ?_⟩
  apply div_nonneg _ (Nat.cast_nonneg n)
  apply List.sum_nonneg
  intro x hx
  obtain ⟨z, _, rfl⟩ := List.mem_map.mp hx
  exact mul_nonneg (Real.exp_pos _).le (by split <;> exact le_max_right _ _)

end PathLemmas

/-! ## The loop counter and the draws -/

section CounterLemmas

variable {F G : Type} [LinearOrderedField F]

/-- The counted loop started `k` below `n_paths` runs `k` more iterations and ends in the state
of `path_loop`. -/
theorem path_loop_for_eq (e : F → F) (smp : Sampler F G) (S0 K df dr dsc : Dbl F) (c : Bool)
    (n_paths : Nat) :
    ∀ (k i iters : Nat) (st : LoopState F G), i + k = n_paths →
      path_loop_for e smp S0 K df dr dsc c n_paths i iters st =
        (iters + k, path_loop e smp S0 K df dr dsc c k st) := by
  intro k
  induction k with
  | zero =>
    intro i iters st h
    rw [path_loop_for]
    simp [show ¬ i < n_paths by omega, path_loop]
  | succ k ih =>
    intro i iters st h
    rw [path_loop_for]
    rw [if_pos (show i < n_paths by omega), ih (i + 1) (iters + 1) _ (by omega), path_loop_succ]
    congr 1
    omega

/-- Each iteration takes one draw: after `k` iterations the draw count has grown by `k`. -/
theorem path_loop_draw_count (e : F → F) (smp : Sampler F G) (S0 K df dr dsc : Dbl F)
    (c : Bool) :
    ∀ (k : Nat) (st : LoopState F (G × Nat)),
      (path_loop e (countingSampler smp) S0 K df dr dsc c k st).rng.2 = st.rng.2 + k := by
  intro k
  induction k with
  | zero => intro st; rfl
  | succ k ih =>
    intro st
    rw [path_loop_succ, ih]
    simp only [path_step, countingSampler]
    omega

end CounterLemmas

/-- Counting the draws does not change them. -/
theorem normal_draws_counting {F G : Type} (smp : Sampler F G) :
    ∀ (k : Nat) (g : G) (m : Nat),
      normal_draws (countingSampler smp) k (g, m) = normal_draws smp k g := by
  intro k
  induction k with
  | zero => intro g m; rfl
  | succ k ih =>
    intro g m
    simp only [normal_draws, countingSampler]
    rw [← ih (smp.normal g).2 (m + 1)]
    rfl

/-! ## The variance -/

section VarianceLemmas

variable {G : Type}

/-- The standard error is computed from `variance_before_clamp` by the clamp, the square root
and the division by `std::sqrt(n)`. -/
theorem std_error_eq {F : Type} [LinearOrderedField F] (e s : F → F) (smp : Sampler F G)
    (S0 K r sigma T : Dbl F) (n seed : Nat) (c : Bool) :
    (mc_price_european e s smp S0 K r sigma T n seed c).std_error =
      if n > 0 then
        div
          (if lt (num 0)
              (if lt (variance_before_clamp e s smp S0 K r sigma T n seed c) (num 0) then num 0
               else variance_before_clamp e s smp S0 K r sigma T n seed c)
           then Dbl.sqrt s
              (if lt (variance_before_clamp e s smp S0 K r sigma T n seed c) (num 0) then num 0
               else variance_before_clamp e s smp S0 K r sigma T n seed c)
           else num 0)
          (Dbl.sqrt s (Dbl.ofNat n))
      else num 0 := rfl

/-- The value of `variance` before the clamp, from the two accumulators. -/
theorem variance_of_sums (smp : Sampler ℝ G) (S0 K r sigma T : Dbl ℝ) (n seed : Nat) (c : Bool)
    (a b : ℝ) (hn : 1 ≤ n)
    (ha : (simulate Real.exp Real.sqrt smp S0 K r sigma T n seed c).sum = num a)
    (hb : (simulate Real.exp Real.sqrt smp S0 K r sigma T n seed c).sum_sq = num b) :
    variance_before_clamp Real.exp Real.sqrt smp S0 K r sigma T n seed c =
      num (b / n - a / n * (a / n)) := by
  have hn0 : (n : ℝ) ≠ 0 := by positivity
  simp only [variance_before_clamp, ha, hb, Dbl.ofNat, div_num_of_ne _ hn0, mul_num, sub_num]

/-- The sum of squared deviations from any `m`, expanded. -/
theorem sum_sq_dev (l : List ℝ) (m : ℝ) :
    (l.map (fun d => (d - m) ^ 2)).sum =
      (l.map (fun d => d ^ 2)).sum - 2 * m * l.sum + l.length * m ^ 2 := by
  induction l with
  | nil => simp
  | cons x l ih =>
    simp only [List.map_cons, List.sum_cons, List.length_cons, Nat.cast_add, Nat.cast_one, ih]
    ring

/-- The mean of the squares minus the square of the mean is the mean squared deviation from
the mean. -/
theorem mean_sq_sub_sq_mean (l : List ℝ) (n : Nat) (hlen : l.length = n) (hn : 1 ≤ n) :
    (1 / (n : ℝ)) * (l.map (fun d => d ^ 2)).sum - ((1 / (n : ℝ)) * l.sum) ^ 2 =
      (1 / (n : ℝ)) * (l.map (fun d => (d - (1 / (n : ℝ)) * l.sum) ^ 2)).sum := by
  have hn0 : (n : ℝ) ≠ 0 := by positivity
  rw [sum_sq_dev, hlen]
  field_simp
  ring

/-- The mean of the squares minus the square of the mean is not negative. -/
theorem mean_sq_sub_sq_mean_nonneg (l : List ℝ) (n : Nat) (hlen : l.length = n) (hn : 1 ≤ n) :
    0 ≤ (1 / (n : ℝ)) * (l.map (fun d => d ^ 2)).sum - ((1 / (n : ℝ)) * l.sum) ^ 2 := by
  rw [mean_sq_sub_sq_mean l n hlen hn]
  apply mul_nonneg (by positivity)
  apply List.sum_nonneg
  intro x hx
  obtain ⟨d, _, rfl⟩ := List.mem_map.mp hx
  positivity

/-- The two-pass variance of `n ≥ 1` values is the mean of the squares minus the square of the
mean. -/
theorem two_pass_variance_eq (l : List ℝ) (n : Nat) (hlen : l.length = n) (hn : 1 ≤ n) :
    two_pass_variance l =
      (1 / (n : ℝ)) * (l.map (fun d => d ^ 2)).sum - ((1 / (n : ℝ)) * l.sum) ^ 2 := by
  rw [mean_sq_sub_sq_mean l n hlen hn]
  simp only [two_pass_variance, hlen]
  rw [div_eq_mul_one_div (l.sum) (n : ℝ), mul_comm l.sum, div_eq_mul_one_div, mul_comm]

/-- One update of Welford's algorithm keeps `count * mean` the sum of the values seen and
`m2` the sum of their squares minus `count * mean ^ 2`. -/
theorem welford_update_inv (w : WelfordState ℝ) (x S Q : ℝ)
    (hmean : (w.count : ℝ) * w.mean = S) (hm2 : w.m2 = Q - w.count * w.mean ^ 2) :
    ((welford_update w x).count : ℝ) * (welford_update w x).mean = S + x ∧
    (welford_update w x).m2 = Q + x ^ 2 -
      (welford_update w x).count * (welford_update w x).mean ^ 2 := by
  have hc : ((w.count + 1 : Nat) : ℝ) ≠ 0 := by positivity
  simp only [welford_update]
  constructor
  · rw [← hmean]
    field_simp
    ring
  · rw [hm2]
    field_simp
    ring

/-- Welford's algorithm over a list keeps the same two relations and counts the values. -/
theorem welford_foldl_inv :
    ∀ (l : List ℝ) (w : WelfordState ℝ) (S Q : ℝ),
      (w.count : ℝ) * w.mean = S → w.m2 = Q - w.count * w.mean ^ 2 →
      (l.foldl welford_update w).count = w.count + l.length ∧
      ((l.foldl welford_update w).count : ℝ) * (l.foldl welford_update w).mean = S + l.sum ∧
      (l.foldl welford_update w).m2 = Q + (l.map (fun d => d ^ 2)).sum -
        (l.foldl welford_update w).count * (l.foldl welford_update w).mean ^ 2 := by
  intro l
  induction l with
  | nil => intro w S Q h1 h2; simpa using ⟨h1, h2⟩
  | cons x l ih =>
    intro w S Q h1 h2
    obtain ⟨h1', h2'⟩ := welford_update_inv w x S Q h1 h2
    obtain ⟨hc, hm, hq⟩ := ih (welford_update w x) (S + x) (Q + x ^ 2) h1' h2'
    simp only [List.foldl_cons, List.length_cons, List.sum_cons, List.map_cons]
    refine ⟨?_, ?_, ?_⟩
    · rw [hc]
      simp only [welford_update]
      omega
    · rw [hm]
      ring
    · rw [hq]
      ring

/-- The variance by Welford's algorithm of `n ≥ 1` values is the mean of the squares minus the
square of the mean. -/
theorem welford_variance_eq (l : List ℝ) (n : Nat) (hlen : l.length = n) (hn : 1 ≤ n) :
    welford_variance l =
      (1 / (n : ℝ)) * (l.map (fun d => d ^ 2)).sum - ((1 / (n : ℝ)) * l.sum) ^ 2 := by
  have hn0 : (n : ℝ) ≠ 0 := by positivity
  obtain ⟨hc, hm, hq⟩ := welford_foldl_inv l (welford_init ℝ) 0 0
    (by simp [welford_init]) (by simp [welford_init])
  have hc0 : (welford_init ℝ).count = 0 := rfl
  simp only [hc0, Nat.zero_add, hlen, zero_add] at hc hm hq
  rw [hc] at hm hq
  have hmean : (l.foldl welford_update (welford_init ℝ)).mean = l.sum / n := by
    field_simp
    linarith
  simp only [welford_variance]
  rw [hq, hc, hmean, sub_div, mul_div_cancel_left₀ _ hn0]
  ring

/-- The discounted payoffs of `n` paths are `n` values. -/
theorem payoffs_length {F : Type} [LinearOrderedField F] (smp : Sampler F G) (n : Nat) (g : G)
    (f : F → Dbl F) (ds : List F) (hds : (normal_draws smp n g).map f = ds.map num) :
    ds.length = n := by
  have h := congrArg List.length hds
  simpa [normal_draws_length] using h.symm

end VarianceLemmas

/-! ## The result from the discounted payoffs -/

section PayoffLemmas

variable {G : Type}

/-- The result of a call with `n ≥ 1` paths whose discounted payoffs are the numbers `ds`: the
price is their mean, `variance` before the clamp is the mean of the squares minus the square of
the mean, and the standard error is its square root over `sqrt(n)`. -/
theorem result_of_payoffs (smp : Sampler ℝ G) (S0 K r sigma T : Dbl ℝ) (n seed : Nat)
    (c : Bool) (ds : List ℝ) (hn : 1 ≤ n)
    (hds : (normal_draws smp n (smp.seed_rng seed)).map (fun Z =>
      discounted_payoff Real.exp S0 K (disc_factor Real.exp r T) (drift r sigma T)
        (diffusion_scale Real.sqrt sigma T) c (num Z)) = ds.map num) :
    (mc_price_european Real.exp Real.sqrt smp S0 K r sigma T n seed c).price =
      num ((1 / (n : ℝ)) * ds.sum) ∧
    variance_before_clamp Real.exp Real.sqrt smp S0 K r sigma T n seed c =
      num ((1 / (n : ℝ)) * (ds.map (fun d => d ^ 2)).sum - ((1 / (n : ℝ)) * ds.sum) ^ 2) ∧
    (mc_price_european Real.exp Real.sqrt smp S0 K r sigma T n seed c).std_error =
      num (Real.sqrt ((1 / (n : ℝ)) * (ds.map (fun d => d ^ 2)).sum -
        ((1 / (n : ℝ)) * ds.sum) ^ 2) / Real.sqrt n) := by
  obtain ⟨ha, hb⟩ := path_loop_of_num Real.exp smp S0 K (disc_factor Real.exp r T)
    (drift r sigma T) (diffusion_scale Real.sqrt sigma T) c n
    { rng := smp.seed_rng seed, sum := num 0, sum_sq := num 0 } 0 0 ds hds rfl rfl
  have hlen : ds.length = n := payoffs_length smp n _ _ ds hds
  have hsq : ds.map (fun d => d * d) = ds.map (fun d => d ^ 2) := by
    simp [pow_two]
  have hv : (0 + (ds.map (fun d => d * d)).sum) / (n : ℝ) -
      (0 + ds.sum) / n * ((0 + ds.sum) / n) =
      (1 / (n : ℝ)) * (ds.map (fun d => d ^ 2)).sum - ((1 / (n : ℝ)) * ds.sum) ^ 2 := by
    rw [hsq]
    ring
  have hv0 := mean_sq_sub_sq_mean_nonneg ds n hlen hn
  obtain ⟨hp, hse⟩ := result_of_sums smp S0 K r sigma T n seed c _ _ hn ha hb
  refine ⟨?_, ?_, ?_⟩
  · rw [hp]
    congr 1
    ring
  · rw [variance_of_sums smp S0 K r sigma T n seed c _ _ hn ha hb, hv]
  · rw [hse, hv]
    congr 2
    split
    · rfl
    · rename_i h
      have h0 : (1 / (n : ℝ)) * (ds.map (fun d => d ^ 2)).sum - ((1 / (n : ℝ)) * ds.sum) ^ 2 = 0 :=
        le_antisymm (not_lt.mp h) hv0
      rw [h0, Real.sqrt_zero]

end PayoffLemmas

/-! ## Call and put on the same paths -/

section ParityLemmas

variable {G : Type}

/-- The call payoff minus the put payoff at the same terminal price. -/
theorem max_sub_max (x K : ℝ) : Max.max (x - K) 0 - Max.max (K - x) 0 = x - K := by
  rcases le_total x K with h | h
  · rw [max_eq_right (by linarith), max_eq_left (by linarith)]
    ring
  · rw [max_eq_left (by linarith), max_eq_right (by linarith)]
    ring

/-- The sum of the discounted call payoffs minus the sum of the discounted put payoffs over
the same terminal prices. -/
theorem sum_call_sub_sum_put (A K : ℝ) (st : ℝ → ℝ) (l : List ℝ) :
    (l.map (fun z => A * Max.max (st z - K) 0)).sum -
        (l.map (fun z => A * Max.max (K - st z) 0)).sum =
      A * ((l.map st).sum - l.length * K) := by
  induction l with
  | nil => simp
  | cons z l ih =>
    simp only [List.map_cons, List.sum_cons, List.length_cons, Nat.cast_add, Nat.cast_one]
    have h := max_sub_max (st z) K
    linear_combination ih + A * h

/-- The price of a call with one path or more, on numbers with a maturity that is not
negative. -/
theorem call_price_real (smp : Sampler ℝ G) (S0 K r sigma T : ℝ) (n seed : Nat)
    (hn : 1 ≤ n) (hT : 0 ≤ T) :
    (mc_price_european Real.exp Real.sqrt smp (num S0) (num K) (num r) (num sigma) (num T)
        n seed true).price =
      num (((normal_draws smp n (smp.seed_rng seed)).map (fun z => Real.exp (-r * T) *
        Max.max (S0 * Real.exp ((r - 0.5 * sigma ^ 2) * T + sigma * Real.sqrt T * z) - K)
          0)).sum / n) := by
  obtain ⟨ha, hb⟩ := simulate_real smp S0 K r sigma T n seed true
    (fun z => Real.exp (-r * T) *
      Max.max (S0 * Real.exp ((r - 0.5 * sigma ^ 2) * T + sigma * Real.sqrt T * z) - K) 0)
    (fun z => (discounted_payoff_real S0 K r sigma T z true hT).trans rfl)
  exact (result_of_sums smp _ _ _ _ _ n seed true _ _ hn ha hb).1

/-- The price of a put with one path or more, on numbers with a maturity that is not
negative. -/
theorem put_price_real (smp : Sampler ℝ G) (S0 K r sigma T : ℝ) (n seed : Nat)
    (hn : 1 ≤ n) (hT : 0 ≤ T) :
    (mc_price_european Real.exp Real.sqrt smp (num S0) (num K) (num r) (num sigma) (num T)
        n seed false).price =
      num (((normal_draws smp n (smp.seed_rng seed)).map (fun z => Real.exp (-r * T) *
        Max.max (K - S0 * Real.exp ((r - 0.5 * sigma ^ 2) * T + sigma * Real.sqrt T * z))
          0)).sum / n) := by
  obtain ⟨ha, hb⟩ := simulate_real smp S0 K r sigma T n seed false
    (fun z => Real.exp (-r * T) *
      Max.max (K - S0 * Real.exp ((r - 0.5 * sigma ^ 2) * T + sigma * Real.sqrt T * z)) 0)
    (fun z => (discounted_payoff_real S0 K r sigma T z false hT).trans rfl)
  exact (result_of_sums smp _ _ _ _ _ n seed false _ _ hn ha hb).1

/-- The price of a call or put with one path or more and a negative maturity is NaN. -/
theorem price_neg_maturity (smp : Sampler ℝ G) (S0 K r sigma T : ℝ) (n seed : Nat) (c : Bool)
    (hn : 1 ≤ n) (hT : T < 0) :
    (mc_price_european Real.exp Real.sqrt smp (num S0) (num K) (num r) (num sigma) (num T)
        n seed c).price = nan := by
  obtain ⟨ha, hb⟩ := simulate_neg_maturity smp S0 K r sigma T n seed c hn hT
  exact (result_of_nan smp _ _ _ _ _ n seed c hn ha hb).1

end ParityLemmas

/-! ## The expectation of the price -/

section ExpectationLemmas

open MeasureTheory ProbabilityTheory

/-- The exponential tilt of the standard normal density is a shifted normal density. -/
theorem exp_mul_gaussianPDFReal (b x : ℝ) :
    Real.exp (b * x) * gaussianPDFReal 0 1 x = Real.exp (b ^ 2 / 2) * gaussianPDFReal b 1 x := by
  simp only [gaussianPDFReal, NNReal.coe_one, mul_one, sub_zero]
  rw [mul_left_comm, ← Real.exp_add, mul_left_comm (Real.exp (b ^ 2 / 2)), ← Real.exp_add]
  congr 2
  ring

/-- The function `exp(b*z)` is integrable against the standard normal law. -/
theorem integrable_exp_mul_gaussian (b : ℝ) :
    Integrable (fun z : ℝ => Real.exp (b * z)) (gaussianReal 0 1) := by
  rw [gaussianReal_of_var_ne_zero 0 one_ne_zero]
  rw [integrable_withDensity_iff (measurable_gaussianPDF 0 1)
    (Filter.Eventually.of_forall (fun x => ENNReal.ofReal_lt_top))]
  have h : (fun x => Real.exp (b * x) * (gaussianPDF 0 1 x).toReal) =
      fun x => Real.exp (b ^ 2 / 2) * gaussianPDFReal b 1 x := by
    funext x
    rw [gaussianPDF, ENNReal.toReal_ofReal (gaussianPDFReal_nonneg 0 1 x),
      exp_mul_gaussianPDFReal]
  rw [h]
  exact (integrable_gaussianPDFReal b 1).const_mul _

/-- A random variable whose law is the standard normal law is almost everywhere
measurable. -/
theorem aemeasurable_of_map_gaussian {Ω : Type} [MeasurableSpace Ω] (P : Measure Ω)
    (X : Ω → ℝ) (h : P.map X = gaussianReal 0 1) : AEMeasurable X P := by
  by_contra hX
  rw [Measure.map_of_not_aemeasurable hX] at h
  have h1 : (gaussianReal 0 1) Set.univ = 1 := measure_univ
  rw [← h] at h1
  simp at h1

/-- The sum of a list as a sum over its indices. -/
theorem list_sum_eq_sum_range (d : ℝ) :
    ∀ l : List ℝ, l.sum = ∑ i in Finset.range l.length, l.getD i d := by
  intro l
  induction l with
  | nil => simp
  | cons x l ih =>
    rw [List.length_cons, Finset.sum_range_succ', List.sum_cons, ih]
    simp [add_comm]

/-- The sum of the images of a list as a sum over its indices. -/
theorem sum_map_eq_sum_range (f : ℝ → ℝ) (l : List ℝ) :
    (l.map f).sum = ∑ i in Finset.range l.length, f (l.getD i 0) := by
  rw [list_sum_eq_sum_range (f 0) (l.map f), List.length_map]
  apply Finset.sum_congr rfl
  intro i _
  simp [List.getD_map]

/-- The expectation of the mean of `f` over `n ≥ 1` random variables of law `γ` is the
integral of `f` against `γ`. -/
theorem integral_mean_of_same_law {Ω : Type} [MeasurableSpace Ω] (P : Measure Ω)
    (γ : Measure ℝ) (f : ℝ → ℝ) (hf : Integrable f γ) (n : Nat) (hn : 1 ≤ n)
    (Z : Nat → Ω → ℝ) (hZm : ∀ i < n, AEMeasurable (Z i) P)
    (hZ : ∀ i < n, P.map (Z i) = γ) :
    Integrable (fun ω => (1 / (n : ℝ)) * ∑ i in Finset.range n, f (Z i ω)) P ∧
    ∫ ω, (1 / (n : ℝ)) * ∑ i in Finset.range n, f (Z i ω) ∂P = ∫ z, f z ∂γ := by
  have hn0 : (n : ℝ) ≠ 0 := by positivity
  have hint : ∀ i ∈ Finset.range n, Integrable (fun ω => f (Z i ω)) P := by
    intro i hi
    have hi' := Finset.mem_range.mp hi
    have h1 : Integrable f (P.map (Z i)) := by rw [hZ i hi']; exact hf
    exact (integrable_map_measure h1.aestronglyMeasurable (hZm i hi')).mp h1
  have hval : ∀ i ∈ Finset.range n, ∫ ω, f (Z i ω) ∂P = ∫ z, f z ∂γ := by
    intro i hi
    have hi' := Finset.mem_range.mp hi
    have h1 : AEStronglyMeasurable f (P.map (Z i)) := by
      rw [hZ i hi']; exact hf.aestronglyMeasurable
    rw [← integral_map (hZm i hi') h1, hZ i hi']
  constructor
  · exact (integrable_finset_sum _ hint).const_mul _
  · rw [integral_mul_left, integral_finset_sum _ hint, Finset.sum_congr rfl hval,
      Finset.sum_const, Finset.card_range, nsmul_eq_mul]
    field_simp

/-- The discounted payoff of a path, as a function of its draw, is integrable against the
standard normal law. -/
theorem integrable_discounted_payoff (A S0 K a b : ℝ) (c : Bool) :
    Integrable (fun z : ℝ => A *
      (if c then Max.max (S0 * Real.exp (a + b * z) - K) 0
       else Max.max (K - S0 * Real.exp (a + b * z)) 0)) (gaussianReal 0 1) := by
  have hbound : Integrable (fun z : ℝ => |A| * (|S0| * Real.exp a * Real.exp (b * z) + |K|))
      (gaussianReal 0 1) :=
    (((integrable_exp_mul_gaussian b).const_mul (|S0| * Real.exp a)).add
      (integrable_const |K|)).const_mul |A|
  have hST : ∀ z : ℝ, |S0 * Real.exp (a + b * z)| = |S0| * Real.exp a * Real.exp (b * z) := by
    intro z
    rw [abs_mul, abs_of_pos (Real.exp_pos _), Real.exp_add, mul_assoc]
  cases c
  · refine hbound.mono' ?_ (Filter.Eventually.of_forall fun z => ?_)
    · apply Continuous.aestronglyMeasurable
      simp only [Bool.false_eq_true, if_false]
      fun_prop
    · simp only [Bool.false_eq_true, if_false, Real.norm_eq_abs, abs_mul]
      apply mul_le_mul_of_nonneg_left _ (abs_nonneg A)
      rw [← hST z]
      apply abs_le.mpr
      constructor
      · have := le_max_right (K - S0 * Real.exp (a + b * z)) 0
        have := abs_nonneg (S0 * Real.exp (a + b * z))
        have := abs_nonneg K
        linarith
      · apply max_le
        · have := neg_abs_le (S0 * Real.exp (a + b * z))
          have := le_abs_self K
          linarith
        · have := abs_nonneg (S0 * Real.exp (a + b * z))
          have := abs_nonneg K
          linarith
  · refine hbound.mono' ?_ (Filter.Eventually.of_forall fun z => ?_)
    · apply Continuous.aestronglyMeasurable
      simp only [if_true]
      fun_prop
    · simp only [if_true, Real.norm_eq_abs, abs_mul]
      apply mul_le_mul_of_nonneg_left _ (abs_nonneg A)
      rw [← hST z]
      apply abs_le.mpr
      constructor
      · have := le_max_right (S0 * Real.exp (a + b * z) - K) 0
        have := abs_nonneg (S0 * Real.exp (a + b * z))
        have := abs_nonneg K
        linarith
      · apply max_le
        · have := le_abs_self (S0 * Real.exp (a + b * z))
          have := neg_abs_le K
          linarith
        · have := abs_nonneg (S0 * Real.exp (a + b * z))
          have := abs_nonneg K
          linarith

/-- The price of a call or put with one path or more, on numbers with a maturity that is not
negative: the mean of the discounted payoffs over the draws. -/
theorem price_real {G : Type} (smp : Sampler ℝ G) (S0 K r sigma T : ℝ) (n seed : Nat)
    (c : Bool) (hn : 1 ≤ n) (hT : 0 ≤ T) :
    (mc_price_european Real.exp Real.sqrt smp (num S0) (num K) (num r) (num sigma) (num T)
        n seed c).price =
      num ((1 / (n : ℝ)) * ((normal_draws smp n (smp.seed_rng seed)).map (fun z =>
        Real.exp (-r * T) *
          (if c then
            Max.max (S0 * Real.exp ((r - 0.5 * sigma ^ 2) * T + sigma * Real.sqrt T * z) - K) 0
          else
            Max.max (K - S0 * Real.exp ((r - 0.5 * sigma ^ 2) * T + sigma * Real.sqrt T * z))
              0))).sum) := by
  obtain ⟨ha, hb⟩ := simulate_real smp S0 K r sigma T n seed c _
    (fun z => discounted_payoff_real S0 K r sigma T z c hT)
  rw [(result_of_sums smp _ _ _ _ _ n seed c _ _ hn ha hb).1]
  congr 1
  ring

end ExpectationLemmas

/-! ## The claims -/

section Claims

variable {G : Type}

/-- C1: for `n_paths = n ≥ 1` and a maturity `T ≥ 0`, with `Z_1..Z_n` the successive draws of
the sampler from the generator seeded with `seed`, the price returned is
`(1/n) * Σ exp(-r*T) * payoff(S0 * exp((r - 0.5*sigma^2)*T + sigma*sqrt(T)*Z_i))`, the payoff
being `max(x - K, 0)` for a call and `max(K - x, 0)` for a put. -/
theorem mc_price_is_mean_of_discounted_payoffs (smp : Sampler ℝ G) (S0 K r sigma T : ℝ)
    (n seed : Nat) (is_call : Bool) (hn : 1 ≤ n) (hT : 0 ≤ T) :
    (mc_price_european Real.exp Real.sqrt smp (num S0) (num K) (num r) (num sigma) (num T)
        n seed is_call).price =
      num ((1 / (n : ℝ)) * ((normal_draws smp n (smp.seed_rng seed)).map (fun Z =>
        Real.exp (-r * T) *
          (if is_call then
            Max.max (S0 * Real.exp ((r - 0.5 * sigma ^ 2) * T + sigma * Real.sqrt T * Z) - K) 0
          else
            Max.max (K - S0 * Real.exp ((r - 0.5 * sigma ^ 2) * T + sigma * Real.sqrt T * Z))
              0))).sum) := by
  obtain ⟨ha, hb⟩ := path_loop_of_fun Real.exp smp (num S0) (num K)
    (disc_factor Real.exp (num r) (num T)) (drift (num r) (num sigma) (num T))
    (diffusion_scale Real.sqrt (num sigma) (num T)) is_call _
    (fun z => discounted_payoff_real S0 K r sigma T z is_call hT) n (smp.seed_rng seed)
  rw [(result_of_sums smp _ _ _ _ _ n seed is_call _ _ hn ha hb).1]
  congr 1
  ring

/-- Witness of C1: two paths of an at-the-money call. -/
theorem mc_price_is_mean_of_discounted_payoffs_witness :
    (1 ≤ 2 ∧ (0 : ℝ) ≤ 1) ∧
    (mc_price_european Real.exp Real.sqrt (counterSampler ℝ) (num 100) (num 100) (num 0)
        (num 0.2) (num 1) 2 0 true).price =
      num ((1 / ((2 : Nat) : ℝ)) * ((normal_draws (counterSampler ℝ) 2
        ((counterSampler ℝ).seed_rng 0)).map (fun Z =>
        Real.exp (-0 * 1) *
          (if true then
            Max.max (100 * Real.exp ((0 - 0.5 * 0.2 ^ 2) * 1 + 0.2 * Real.sqrt 1 * Z) - 100) 0
          else
            Max.max (100 - 100 * Real.exp ((0 - 0.5 * 0.2 ^ 2) * 1 + 0.2 * Real.sqrt 1 * Z))
              0))).sum) :=
  ⟨⟨by decide, by norm_num⟩,
    mc_price_is_mean_of_discounted_payoffs (counterSampler ℝ) 100 100 0 0.2 1 2 0 true
      (by decide) (by norm_num)⟩

/-- C2: with `n_paths = 0` the price returned is not `0`: whatever the other seven inputs,
it is `0.0 / 0.0`, which is NaN. -/
theorem mc_price_zero_paths_is_nan {F : Type} [LinearOrderedField F] (e s : F → F)
    (smp : Sampler F G) (S0 K r sigma T : Dbl F) (seed : Nat) (is_call : Bool) :
    (mc_price_european e s smp S0 K r sigma T 0 seed is_call).price = nan ∧
    (mc_price_european e s smp S0 K r sigma T 0 seed is_call).price ≠ num 0 := by
  rw [price_zero_paths]
  exact ⟨rfl, by simp⟩

/-- C3: with `n_paths = 0` the standard error returned is `0`, whatever the other seven
inputs, infinities and NaN included. -/
theorem mc_std_error_zero_paths {F : Type} [LinearOrderedField F] (e s : F → F)
    (smp : Sampler F G) (S0 K r sigma T : Dbl F) (seed : Nat) (is_call : Bool) :
    (mc_price_european e s smp S0 K r sigma T 0 seed is_call).std_error = num 0 := by
  simp [mc_price_european, mc_price_european_traced]

/-- C4: with `n_paths = 0` a call evaluates two divisions, `sum / n` and `sum_sq / n`, and the
divisor of both is zero. -/
theorem mc_divisors_zero_paths {F : Type} [LinearOrderedField F] (e s : F → F)
    (smp : Sampler F G) (S0 K r sigma T : Dbl F) (seed : Nat) (is_call : Bool) :
    mc_divisors e s smp S0 K r sigma T 0 seed is_call = [num 0, num 0] := by
  simp [mc_divisors, mc_price_european_traced, Dbl.ofNat]

/-- With one path or more every division of a call has a divisor that is a non-zero number. -/
theorem mc_divisors_of_pos (smp : Sampler ℝ G) (S0 K r sigma T : Dbl ℝ) (n seed : Nat)
    (is_call : Bool) (hn : 1 ≤ n) :
    ∀ d ∈ mc_divisors Real.exp Real.sqrt smp S0 K r sigma T n seed is_call,
      ∃ x : ℝ, d = num x ∧ x ≠ 0 := by
  have hn0 : (n : ℝ) ≠ 0 := by positivity
  have hnpos : 0 < n := hn
  have hsq : Real.sqrt (n : ℝ) ≠ 0 := by positivity
  have hnn : (0 : ℝ) ≤ (n : ℝ) := by positivity
  intro d hd
  simp only [mc_divisors, mc_price_european_traced, Dbl.ofNat, gt_iff_lt, hnpos, if_true,
    sqrt_num_of_nonneg Real.sqrt hnn, List.cons_append, List.nil_append, List.mem_cons,
    List.mem_singleton, List.mem_nil_iff, or_false] at hd
  rcases hd with h | h | h
  · exact ⟨n, h, hn0⟩
  · exact ⟨n, h, hn0⟩
  · exact ⟨Real.sqrt n, h, hsq⟩

/-- C6: at a valid input with `n_paths = 0` (spot 100, strike 100, rate 0.05, volatility 0.2,
maturity 1, seed 42, a call) the price returned is NaN, not a number that is `≥ 0`. -/
theorem mc_price_zero_paths_not_nonneg (smp : Sampler ℝ G) :
    (mc_price_european Real.exp Real.sqrt smp (num 100) (num 100) (num 0.05) (num 0.2)
      (num 1) 0 42 true).price = nan ∧
    ¬ ∃ x : ℝ, (mc_price_european Real.exp Real.sqrt smp (num 100) (num 100) (num 0.05)
      (num 0.2) (num 1) 0 42 true).price = num x ∧ 0 ≤ x := by
  rw [price_zero_paths]
  refine ⟨rfl, ?_⟩
  rintro ⟨x, hx, _⟩
  cases hx

/-- C7: for every spot, strike, rate, volatility and maturity that are numbers (the valid
inputs among them), every `n_paths ≥ 0`, every seed and either value of `is_call`, the
standard error returned is a number that is `≥ 0`. -/
theorem mc_std_error_nonneg (smp : Sampler ℝ G) (S0 K r sigma T : ℝ) (n_paths seed : Nat)
    (is_call : Bool) :
    ∃ x : ℝ, (mc_price_european Real.exp Real.sqrt smp (num S0) (num K) (num r) (num sigma)
      (num T) n_paths seed is_call).std_error = num x ∧ 0 ≤ x := by
  rcases Nat.eq_zero_or_pos n_paths with h0 | hpos
  · subst h0
    exact ⟨0, by simp [mc_price_european, mc_price_european_traced], le_refl 0⟩
  · rcases lt_or_le T 0 with hT | hT
    · obtain ⟨ha, hb⟩ := simulate_neg_maturity smp S0 K r sigma T n_paths seed is_call hpos hT
      exact ⟨0, (result_of_nan smp _ _ _ _ _ n_paths seed is_call hpos ha hb).2, le_refl 0⟩
    · obtain ⟨ha, hb⟩ := simulate_real smp S0 K r sigma T n_paths seed is_call _
        (fun z => discounted_payoff_real S0 K r sigma T z is_call hT)
      exact ⟨_, (result_of_sums smp _ _ _ _ _ n_paths seed is_call _ _ hpos ha hb).2,
        div_nonneg (std_dev_nonneg _) (Real.sqrt_nonneg _)⟩

/-- C8: with volatility `0`, maturity `T > 0` and one path or more, every simulated terminal
price is `S0 * exp(r*T)` and the price returned is the discounted intrinsic payoff,
`exp(-r*T) * max(S0*exp(r*T) - K, 0)` for a call and `exp(-r*T) * max(K - S0*exp(r*T), 0)` for
a put, for every seed. -/
theorem mc_price_zero_volatility (smp : Sampler ℝ G) (S0 K r sigma T : ℝ) (n_paths seed : Nat)
    (is_call : Bool) (hsigma : sigma = 0) (hT : 0 < T) (hn : 1 ≤ n_paths) :
    (∀ Z ∈ normal_draws smp n_paths (smp.seed_rng seed),
      terminal_price Real.exp (num S0) (drift (num r) (num sigma) (num T))
        (diffusion_scale Real.sqrt (num sigma) (num T)) (num Z) =
      num (S0 * Real.exp (r * T))) ∧
    (mc_price_european Real.exp Real.sqrt smp (num S0) (num K) (num r) (num sigma) (num T)
        n_paths seed is_call).price =
      num (Real.exp (-r * T) *
        (if is_call then Max.max (S0 * Real.exp (r * T) - K) 0
         else Max.max (K - S0 * Real.exp (r * T)) 0)) := by
  subst hsigma
  have hd : ∀ z, discounted_payoff Real.exp (num S0) (num K)
      (disc_factor Real.exp (num r) (num T)) (drift (num r) (num 0) (num T))
      (diffusion_scale Real.sqrt (num 0) (num T)) is_call (num z) =
      num (Real.exp (-r * T) *
        (if is_call then Max.max (S0 * Real.exp (r * T) - K) 0
         else Max.max (K - S0 * Real.exp (r * T)) 0)) := by
    intro z
    rw [discounted_payoff_real S0 K r 0 T z is_call hT.le]
    norm_num
  obtain ⟨ha, hb⟩ := simulate_const smp S0 K r 0 T n_paths seed is_call _ hd
  have hn0 : (n_paths : ℝ) ≠ 0 := by positivity
  constructor
  · intro Z _
    rw [terminal_price_real S0 r 0 T Z hT.le]
    norm_num
  · rw [(result_of_sums smp _ _ _ _ _ n_paths seed is_call _ _ hn ha hb).1]
    congr 1
    exact mul_div_cancel_left₀ _ hn0

/-- Witness of C8: two paths of an in-the-money call with volatility `0` and maturity `1`. -/
theorem mc_price_zero_volatility_witness :
    ((0 : ℝ) = 0 ∧ (0 : ℝ) < 1 ∧ 1 ≤ 2) ∧
    (∀ Z ∈ normal_draws (counterSampler ℝ) 2 ((counterSampler ℝ).seed_rng 0),
      terminal_price Real.exp (num 100) (drift (num 0.05) (num 0) (num 1))
        (diffusion_scale Real.sqrt (num 0) (num 1)) (num Z) =
      num (100 * Real.exp (0.05 * 1))) ∧
    (mc_price_european Real.exp Real.sqrt (counterSampler ℝ) (num 100) (num 90) (num 0.05)
        (num 0) (num 1) 2 0 true).price =
      num (Real.exp (-0.05 * 1) *
        (if true then Max.max (100 * Real.exp (0.05 * 1) - 90) 0
         else Max.max (90 - 100 * Real.exp (0.05 * 1)) 0)) :=
  ⟨⟨rfl, by norm_num, by decide⟩,
    mc_price_zero_volatility (counterSampler ℝ) 100 90 0.05 0 1 2 0 true rfl (by norm_num)
      (by decide)⟩

/-- C9: with one path or more and either volatility `0` or maturity `0`, all paths have the
same discounted payoff `d`, the price returned is `d` and the standard error returned is `0`,
for every seed.  For a maturity `T ≥ 0` that `d` is a number; for volatility `0` and `T < 0` it
is NaN, from `std::sqrt(T)`. -/
theorem mc_degenerate_paths_collapse (smp : Sampler ℝ G) (S0 K r sigma T : ℝ)
    (n_paths seed : Nat) (is_call : Bool) (hdeg : sigma = 0 ∨ T = 0) (hn : 1 ≤ n_paths) :
    ∃ d : Dbl ℝ,
      (∀ Z ∈ normal_draws smp n_paths (smp.seed_rng seed),
        discounted_payoff Real.exp (num S0) (num K) (disc_factor Real.exp (num r) (num T))
          (drift (num r) (num sigma) (num T)) (diffusion_scale Real.sqrt (num sigma) (num T))
          is_call (num Z) = d) ∧
      (mc_price_european Real.exp Real.sqrt smp (num S0) (num K) (num r) (num sigma) (num T)
        n_paths seed is_call).price = d ∧
      (mc_price_european Real.exp Real.sqrt smp (num S0) (num K) (num r) (num sigma) (num T)
        n_paths seed is_call).std_error = num 0 ∧
      (0 ≤ T → ∃ x : ℝ, d = num x) := by
  rcases lt_or_le T 0 with hT | hT
  · obtain ⟨ha, hb⟩ := simulate_neg_maturity smp S0 K r sigma T n_paths seed is_call hn hT
    obtain ⟨hp, hse⟩ := result_of_nan smp _ _ _ _ _ n_paths seed is_call hn ha hb
    exact ⟨nan, fun Z _ => discounted_payoff_neg_maturity S0 K r sigma T Z is_call hT, hp, hse,
      fun h => absurd h (not_le.mpr hT)⟩
  · have hz : sigma * Real.sqrt T = 0 := by
      rcases hdeg with h | h <;> simp [h]
    have hd : ∀ z, discounted_payoff Real.exp (num S0) (num K)
        (disc_factor Real.exp (num r) (num T)) (drift (num r) (num sigma) (num T))
        (diffusion_scale Real.sqrt (num sigma) (num T)) is_call (num z) =
        num (Real.exp (-r * T) *
          (if is_call then Max.max (S0 * Real.exp ((r - 0.5 * sigma ^ 2) * T) - K) 0
           else Max.max (K - S0 * Real.exp ((r - 0.5 * sigma ^ 2) * T)) 0)) := by
      intro z
      rw [discounted_payoff_real S0 K r sigma T z is_call hT, hz]
      simp
    obtain ⟨ha, hb⟩ := simulate_const smp S0 K r sigma T n_paths seed is_call _ hd
    obtain ⟨hp, hse⟩ := result_of_sums smp _ _ _ _ _ n_paths seed is_call _ _ hn ha hb
    have hn0 : (n_paths : ℝ) ≠ 0 := by positivity
    refine ⟨_, fun Z _ => hd Z, ?_, ?_, fun _ => ⟨_, rfl⟩⟩
    · rw [hp, mul_div_cancel_left₀ _ hn0]
    · rw [hse, mul_div_cancel_left₀ _ hn0, mul_div_cancel_left₀ _ hn0]
      simp

/-- Witness of C9: two paths of an in-the-money call at maturity `0`. -/
theorem mc_degenerate_paths_collapse_witness :
    (((0.2 : ℝ) = 0 ∨ (0 : ℝ) = 0) ∧ 1 ≤ 2) ∧
    ∃ d : Dbl ℝ,
      (∀ Z ∈ normal_draws (counterSampler ℝ) 2 ((counterSampler ℝ).seed_rng 0),
        discounted_payoff Real.exp (num 100) (num 90) (disc_factor Real.exp (num 0.05) (num 0))
          (drift (num 0.05) (num 0.2) (num 0)) (diffusion_scale Real.sqrt (num 0.2) (num 0))
          true (num Z) = d) ∧
      (mc_price_european Real.exp Real.sqrt (counterSampler ℝ) (num 100) (num 90) (num 0.05)
        (num 0.2) (num 0) 2 0 true).price = d ∧
      (mc_price_european Real.exp Real.sqrt (counterSampler ℝ) (num 100) (num 90) (num 0.05)
        (num 0.2) (num 0) 2 0 true).std_error = num 0 ∧
      ((0 : ℝ) ≤ 0 → ∃ x : ℝ, d = num x) :=
  ⟨⟨Or.inr rfl, by decide⟩,
    mc_degenerate_paths_collapse (counterSampler ℝ) 100 90 0.05 0.2 0 2 0 true (Or.inr rfl)
      (by decide)⟩

/-- C10: with `n_paths = n ≥ 1` and `d_1..d_n` the discounted payoffs of the `n` paths, the
standard error returned is `std_dev / sqrt(n)`, where `std_dev` is `sqrt(v)` if `v > 0` and `0`
otherwise, and `v = (1/n) * Σ d_i^2 - ((1/n) * Σ d_i)^2`. -/
theorem mc_std_error_formula (smp : Sampler ℝ G) (S0 K r sigma T : Dbl ℝ) (n_paths seed : Nat)
    (is_call : Bool) (ds : List ℝ) (hn : 1 ≤ n_paths)
    (hds : (normal_draws smp n_paths (smp.seed_rng seed)).map (fun Z =>
      discounted_payoff Real.exp S0 K (disc_factor Real.exp r T) (drift r sigma T)
        (diffusion_scale Real.sqrt sigma T) is_call (num Z)) = ds.map num) :
    (mc_price_european Real.exp Real.sqrt smp S0 K r sigma T n_paths seed is_call).std_error =
      num ((if 0 < (1 / (n_paths : ℝ)) * (ds.map (fun d => d ^ 2)).sum -
                ((1 / (n_paths : ℝ)) * ds.sum) ^ 2
            then Real.sqrt ((1 / (n_paths : ℝ)) * (ds.map (fun d => d ^ 2)).sum -
                ((1 / (n_paths : ℝ)) * ds.sum) ^ 2)
            else 0) / Real.sqrt n_paths) := by
  obtain ⟨ha, hb⟩ := path_loop_of_num Real.exp smp S0 K (disc_factor Real.exp r T)
    (drift r sigma T) (diffusion_scale Real.sqrt sigma T) is_call n_paths
    { rng := smp.seed_rng seed, sum := num 0, sum_sq := num 0 } 0 0 ds hds rfl rfl
  rw [(result_of_sums smp S0 K r sigma T n_paths seed is_call _ _ hn ha hb).2]
  have hsq : ds.map (fun d => d * d) = ds.map (fun d => d ^ 2) := by
    simp [pow_two]
  have hv : (0 + (ds.map (fun d => d * d)).sum) / (n_paths : ℝ) -
      (0 + ds.sum) / n_paths * ((0 + ds.sum) / n_paths) =
      (1 / (n_paths : ℝ)) * (ds.map (fun d => d ^ 2)).sum -
        ((1 / (n_paths : ℝ)) * ds.sum) ^ 2 := by
    rw [hsq]
    ring
  rw [hv]

/-- Witness of C10: two paths of a call with volatility `0`, rate `0` and maturity `1`, whose
discounted payoffs are `10, 10`. -/
theorem mc_std_error_formula_witness :
    (1 ≤ 2 ∧
      (normal_draws (counterSampler ℝ) 2 ((counterSampler ℝ).seed_rng 0)).map (fun Z =>
        discounted_payoff Real.exp (num 100) (num 90) (disc_factor Real.exp (num 0) (num 1))
          (drift (num 0) (num 0) (num 1)) (diffusion_scale Real.sqrt (num 0) (num 1)) true
          (num Z)) = ([10, 10] : List ℝ).map num) ∧
    (mc_price_european Real.exp Real.sqrt (counterSampler ℝ) (num 100) (num 90) (num 0)
        (num 0) (num 1) 2 0 true).std_error =
      num ((if 0 < (1 / ((2 : Nat) : ℝ)) * (([10, 10] : List ℝ).map (fun d => d ^ 2)).sum -
                ((1 / ((2 : Nat) : ℝ)) * ([10, 10] : List ℝ).sum) ^ 2
            then Real.sqrt ((1 / ((2 : Nat) : ℝ)) *
                (([10, 10] : List ℝ).map (fun d => d ^ 2)).sum -
                ((1 / ((2 : Nat) : ℝ)) * ([10, 10] : List ℝ).sum) ^ 2)
            else 0) / Real.sqrt (2 : Nat)) :=
  have h : (normal_draws (counterSampler ℝ) 2 ((counterSampler ℝ).seed_rng 0)).map (fun Z =>
        discounted_payoff Real.exp (num 100) (num 90) (disc_factor Real.exp (num 0) (num 1))
          (drift (num 0) (num 0) (num 1)) (diffusion_scale Real.sqrt (num 0) (num 1)) true
          (num Z)) = ([10, 10] : List ℝ).map num := by
    simp only [normal_draws, List.map_cons, List.map_nil,
      discounted_payoff_real 100 90 0 0 1 _ true (le_of_lt one_pos)]
    norm_num
  ⟨⟨by decide, h⟩,
    mc_std_error_formula (counterSampler ℝ) (num 100) (num 90) (num 0) (num 0) (num 1) 2 0 true
      [10, 10] (by decide) h⟩

/-- C11: the price is an unbiased estimator.  Let the sampler and the seed depend on an outcome
`ω` of a space with measure `P`, so that each of the `n ≥ 1` draws `Z_1..Z_n` of a call is a
random variable, and let each draw have the standard normal law.  Then, for a maturity
`T ≥ 0`, the price returned is an integrable random variable whose expectation is
`E[exp(-r*T) * payoff(S0 * exp((r - 0.5*sigma^2)*T + sigma*sqrt(T)*Z))]` for a standard normal
`Z`, the payoff being that of the call or of the put as `is_call` says. -/
theorem mc_price_unbiased {Ω : Type} [MeasurableSpace Ω] (P : MeasureTheory.Measure Ω)
    (smp : Ω → Sampler ℝ G) (seed : Ω → Nat) (S0 K r sigma T : ℝ) (n_paths : Nat)
    (is_call : Bool) (hn : 1 ≤ n_paths) (hT : 0 ≤ T)
    (hZ : ∀ i < n_paths,
      P.map (fun ω => (normal_draws (smp ω) n_paths ((smp ω).seed_rng (seed ω))).getD i 0) =
        ProbabilityTheory.gaussianReal 0 1) :
    ∃ price : Ω → ℝ,
      (∀ ω, (mc_price_european Real.exp Real.sqrt (smp ω) (num S0) (num K) (num r) (num sigma)
        (num T) n_paths (seed ω) is_call).price = num (price ω)) ∧
      MeasureTheory.Integrable price P ∧
      ∫ ω, price ω ∂P =
        ∫ Z, Real.exp (-r * T) *
          (if is_call then
            Max.max (S0 * Real.exp ((r - 0.5 * sigma ^ 2) * T + sigma * Real.sqrt T * Z) - K) 0
          else
            Max.max (K - S0 * Real.exp ((r - 0.5 * sigma ^ 2) * T + sigma * Real.sqrt T * Z))
              0) ∂(ProbabilityTheory.gaussianReal 0 1) := by
  have hf := integrable_discounted_payoff (Real.exp (-r * T)) S0 K ((r - 0.5 * sigma ^ 2) * T)
    (sigma * Real.sqrt T) is_call
  have hmean := integral_mean_of_same_law P (ProbabilityTheory.gaussianReal 0 1) _ hf n_paths hn
    (fun i ω => (normal_draws (smp ω) n_paths ((smp ω).seed_rng (seed ω))).getD i 0)
    (fun i hi => aemeasurable_of_map_gaussian P _ (hZ i hi)) hZ
  have hsum : ∀ ω, (1 / (n_paths : ℝ)) *
      ((normal_draws (smp ω) n_paths ((smp ω).seed_rng (seed ω))).map (fun z =>
        Real.exp (-r * T) *
          (if is_call then
            Max.max (S0 * Real.exp ((r - 0.5 * sigma ^ 2) * T + sigma * Real.sqrt T * z) - K) 0
          else
            Max.max (K - S0 * Real.exp ((r - 0.5 * sigma ^ 2) * T + sigma * Real.sqrt T * z))
              0))).sum =
      (1 / (n_paths : ℝ)) * ∑ i in Finset.range n_paths,
        (fun z => Real.exp (-r * T) *
          (if is_call then
            Max.max (S0 * Real.exp ((r - 0.5 * sigma ^ 2) * T + sigma * Real.sqrt T * z) - K) 0
          else
            Max.max (K - S0 * Real.exp ((r - 0.5 * sigma ^ 2) * T + sigma * Real.sqrt T * z))
              0))
          ((normal_draws (smp ω) n_paths ((smp ω).seed_rng (seed ω))).getD i 0) := by
    intro ω
    rw [sum_map_eq_sum_range, normal_draws_length]
  refine ⟨fun ω => (1 / (n_paths : ℝ)) * ∑ i in Finset.range n_paths,
    (fun z => Real.exp (-r * T) *
      (if is_call then
        Max.max (S0 * Real.exp ((r - 0.5 * sigma ^ 2) * T + sigma * Real.sqrt T * z) - K) 0
      else
        Max.max (K - S0 * Real.exp ((r - 0.5 * sigma ^ 2) * T + sigma * Real.sqrt T * z)) 0))
      ((normal_draws (smp ω) n_paths ((smp ω).seed_rng (seed ω))).getD i 0), ?_, hmean.1,
    hmean.2⟩
  intro ω
  rw [price_real (smp ω) S0 K r sigma T n_paths (seed ω) is_call hn hT, hsum ω]

/-- Witness of C11: the outcome is a real number with the standard normal law and the one draw
of the call is that number. -/
theorem mc_price_unbiased_witness :
    (1 ≤ 1 ∧ (0 : ℝ) ≤ 1 ∧
      ∀ i < 1, (ProbabilityTheory.gaussianReal 0 1).map (fun ω : ℝ =>
        (normal_draws (constSampler ω) 1 ((constSampler ω).seed_rng 0)).getD i 0) =
        ProbabilityTheory.gaussianReal 0 1) ∧
    ∃ price : ℝ → ℝ,
      (∀ ω, (mc_price_european Real.exp Real.sqrt (constSampler ω) (num 100) (num 100)
        (num 0.05) (num 0.2) (num 1) 1 0 true).price = num (price ω)) ∧
      MeasureTheory.Integrable price (ProbabilityTheory.gaussianReal 0 1) ∧
      ∫ ω, price ω ∂(ProbabilityTheory.gaussianReal 0 1) =
        ∫ Z, Real.exp (-0.05 * 1) *
          (if true then
            Max.max (100 * Real.exp ((0.05 - 0.5 * 0.2 ^ 2) * 1 + 0.2 * Real.sqrt 1 * Z) - 100) 0
          else
            Max.max (100 - 100 * Real.exp ((0.05 - 0.5 * 0.2 ^ 2) * 1 + 0.2 * Real.sqrt 1 * Z))
              0) ∂(ProbabilityTheory.gaussianReal 0 1) :=
  have h : ∀ i < 1, (ProbabilityTheory.gaussianReal 0 1).map (fun ω : ℝ =>
        (normal_draws (constSampler ω) 1 ((constSampler ω).seed_rng 0)).getD i 0) =
        ProbabilityTheory.gaussianReal 0 1 := by
    intro i hi
    obtain rfl : i = 0 := by omega
    simp only [normal_draws, constSampler, List.getD_cons_zero]
    exact MeasureTheory.Measure.map_id'
  ⟨⟨le_refl 1, by norm_num, h⟩,
    mc_price_unbiased (ProbabilityTheory.gaussianReal 0 1) (fun ω => constSampler ω)
      (fun _ => 0) 100 100 0.05 0.2 1 1 true (le_refl 1) (by norm_num) h⟩

/-- C12: for every `n_paths = n ≥ 0` the loop `for (i = 0; i < n_paths; ++i)` stops after
exactly `n` iterations, having taken exactly `n` draws from the sampler, one per path,
whatever `S0`, `K`, `r`, `sigma`, `T`, `is_call`, the seed and the values drawn; the state it
stops in is the one the result is computed from, and counting the draws does not change the
result. -/
theorem mc_loop_runs_n_paths_draws {F G : Type} [LinearOrderedField F] (e s : F → F)
    (smp : Sampler F G) (S0 K r sigma T : Dbl F) (n_paths seed : Nat) (is_call : Bool) :
    (path_loop_for e (countingSampler smp) S0 K (disc_factor e r T) (drift r sigma T)
        (diffusion_scale s sigma T) is_call n_paths 0 0
        { rng := (countingSampler smp).seed_rng seed, sum := num 0, sum_sq := num 0 }).1 =
      n_paths ∧
    (path_loop_for e (countingSampler smp) S0 K (disc_factor e r T) (drift r sigma T)
        (diffusion_scale s sigma T) is_call n_paths 0 0
        { rng := (countingSampler smp).seed_rng seed, sum := num 0, sum_sq := num 0 }).2.rng.2 =
      n_paths ∧
    (path_loop_for e (countingSampler smp) S0 K (disc_factor e r T) (drift r sigma T)
        (diffusion_scale s sigma T) is_call n_paths 0 0
        { rng := (countingSampler smp).seed_rng seed, sum := num 0, sum_sq := num 0 }).2 =
      simulate e s (countingSampler smp) S0 K r sigma T n_paths seed is_call ∧
    mc_price_european e s (countingSampler smp) S0 K r sigma T n_paths seed is_call =
      mc_price_european e s smp S0 K r sigma T n_paths seed is_call := by
  rw [path_loop_for_eq e (countingSampler smp) S0 K _ _ _ is_call n_paths n_paths 0 0 _
    (Nat.zero_add _)]
  refine ⟨Nat.zero_add _, ?_, rfl, ?_⟩
  · rw [path_loop_draw_count]
    simp [countingSampler]
  · obtain ⟨h1, h2⟩ := path_loop_congr_draws e (countingSampler smp) smp S0 K
      (disc_factor e r T) (drift r sigma T) (diffusion_scale s sigma T) is_call n_paths
      { rng := (countingSampler smp).seed_rng seed, sum := num 0, sum_sq := num 0 }
      { rng := smp.seed_rng seed, sum := num 0, sum_sq := num 0 }
      (normal_draws_counting smp n_paths _ 0) rfl rfl
    exact result_congr_sums e s (countingSampler smp) smp S0 K r sigma T n_paths seed is_call
      h1 h2

/-- C13: in exact arithmetic, for `n ≥ 1` paths with discounted payoffs `d_1..d_n`, the value
`mean_sq - mean^2 = (1/n) * Σ d_i^2 - ((1/n) * Σ d_i)^2` of `variance` is `≥ 0`, the test
`variance < 0.0` is false, and the clamp leaves `variance` as it is. -/
theorem mc_variance_clamp_not_taken (smp : Sampler ℝ G) (S0 K r sigma T : Dbl ℝ)
    (n_paths seed : Nat) (is_call : Bool) (ds : List ℝ) (hn : 1 ≤ n_paths)
    (hds : (normal_draws smp n_paths (smp.seed_rng seed)).map (fun Z =>
      discounted_payoff Real.exp S0 K (disc_factor Real.exp r T) (drift r sigma T)
        (diffusion_scale Real.sqrt sigma T) is_call (num Z)) = ds.map num) :
    0 ≤ (1 / (n_paths : ℝ)) * (ds.map (fun d => d ^ 2)).sum -
        ((1 / (n_paths : ℝ)) * ds.sum) ^ 2 ∧
    variance_before_clamp Real.exp Real.sqrt smp S0 K r sigma T n_paths seed is_call =
      num ((1 / (n_paths : ℝ)) * (ds.map (fun d => d ^ 2)).sum -
        ((1 / (n_paths : ℝ)) * ds.sum) ^ 2) ∧
    lt (variance_before_clamp Real.exp Real.sqrt smp S0 K r sigma T n_paths seed is_call)
      (num 0) = false ∧
    (if lt (variance_before_clamp Real.exp Real.sqrt smp S0 K r sigma T n_paths seed is_call)
        (num 0) then num 0
      else variance_before_clamp Real.exp Real.sqrt smp S0 K r sigma T n_paths seed is_call) =
      variance_before_clamp Real.exp Real.sqrt smp S0 K r sigma T n_paths seed is_call := by
  have hlen : ds.length = n_paths := payoffs_length smp n_paths _ _ ds hds
  have hv0 := mean_sq_sub_sq_mean_nonneg ds n_paths hlen hn
  obtain ⟨_, hv, _⟩ := result_of_payoffs smp S0 K r sigma T n_paths seed is_call ds hn hds
  have hlt : lt (variance_before_clamp Real.exp Real.sqrt smp S0 K r sigma T n_paths seed
      is_call) (num 0) = false := by
    rw [hv, lt_num]
    exact decide_eq_false (not_lt.mpr hv0)
  refine ⟨hv0, hv, hlt, ?_⟩
  rw [hlt]
  rfl

/-- Witness of C13: two paths of a call with volatility `0`, rate `0` and maturity `1`, whose
discounted payoffs are `10, 10`. -/
theorem mc_variance_clamp_not_taken_witness :
    (1 ≤ 2 ∧
      (normal_draws (counterSampler ℝ) 2 ((counterSampler ℝ).seed_rng 0)).map (fun Z =>
        discounted_payoff Real.exp (num 100) (num 90) (disc_factor Real.exp (num 0) (num 1))
          (drift (num 0) (num 0) (num 1)) (diffusion_scale Real.sqrt (num 0) (num 1)) true
          (num Z)) = ([10, 10] : List ℝ).map num) ∧
    lt (variance_before_clamp Real.exp Real.sqrt (counterSampler ℝ) (num 100) (num 90) (num 0)
      (num 0) (num 1) 2 0 true) (num 0) = false :=
  have h : (normal_draws (counterSampler ℝ) 2 ((counterSampler ℝ).seed_rng 0)).map (fun Z =>
        discounted_payoff Real.exp (num 100) (num 90) (disc_factor Real.exp (num 0) (num 1))
          (drift (num 0) (num 0) (num 1)) (diffusion_scale Real.sqrt (num 0) (num 1)) true
          (num Z)) = ([10, 10] : List ℝ).map num := by
    simp only [normal_draws, List.map_cons, List.map_nil,
      discounted_payoff_real 100 90 0 0 1 _ true (le_of_lt one_pos)]
    norm_num
  ⟨⟨by decide, h⟩,
    (mc_variance_clamp_not_taken (counterSampler ℝ) (num 100) (num 90) (num 0) (num 0) (num 1)
      2 0 true [10, 10] (by decide) h).2.2.1⟩

/-- C14: in exact arithmetic, for `n ≥ 1` paths with discounted payoffs `d_1..d_n` and mean
`m = price`, the standard error of the single-pass accumulators satisfies
`n * std_error^2 = (1/n) * Σ (d_i - m)^2`, and it is the standard error computed from the
two-pass variance and from the variance of Welford's online algorithm. -/
theorem mc_std_error_eq_two_pass_and_welford (smp : Sampler ℝ G) (S0 K r sigma T : Dbl ℝ)
    (n_paths seed : Nat) (is_call : Bool) (ds : List ℝ) (hn : 1 ≤ n_paths)
    (hds : (normal_draws smp n_paths (smp.seed_rng seed)).map (fun Z =>
      discounted_payoff Real.exp S0 K (disc_factor Real.exp r T) (drift r sigma T)
        (diffusion_scale Real.sqrt sigma T) is_call (num Z)) = ds.map num) :
    ∃ m se : ℝ,
      (mc_price_european Real.exp Real.sqrt smp S0 K r sigma T n_paths seed is_call).price =
        num m ∧
      (mc_price_european Real.exp Real.sqrt smp S0 K r sigma T n_paths seed is_call).std_error =
        num se ∧
      (n_paths : ℝ) * se ^ 2 = (1 / (n_paths : ℝ)) * (ds.map (fun d => (d - m) ^ 2)).sum ∧
      se = Real.sqrt (two_pass_variance ds) / Real.sqrt n_paths ∧
      se = Real.sqrt (welford_variance ds) / Real.sqrt n_paths := by
  have hlen : ds.length = n_paths := payoffs_length smp n_paths _ _ ds hds
  have hv0 := mean_sq_sub_sq_mean_nonneg ds n_paths hlen hn
  have hn0 : (n_paths : ℝ) ≠ 0 := by positivity
  have hnn : (0 : ℝ) ≤ (n_paths : ℝ) := by positivity
  obtain ⟨hp, _, hse⟩ := result_of_payoffs smp S0 K r sigma T n_paths seed is_call ds hn hds
  refine ⟨_, _, hp, hse, ?_, ?_, ?_⟩
  · rw [div_pow, Real.sq_sqrt hv0, Real.sq_sqrt hnn, mul_div_cancel₀ _ hn0,
      mean_sq_sub_sq_mean ds n_paths hlen hn]
  · rw [two_pass_variance_eq ds n_paths hlen hn]
  · rw [welford_variance_eq ds n_paths hlen hn]

/-- Witness of C14: two paths of a call with volatility `0`, rate `0` and maturity `1`, whose
discounted payoffs are `10, 10`. -/
theorem mc_std_error_eq_two_pass_and_welford_witness :
    (1 ≤ 2 ∧
      (normal_draws (counterSampler ℝ) 2 ((counterSampler ℝ).seed_rng 0)).map (fun Z =>
        discounted_payoff Real.exp (num 100) (num 90) (disc_factor Real.exp (num 0) (num 1))
          (drift (num 0) (num 0) (num 1)) (diffusion_scale Real.sqrt (num 0) (num 1)) true
          (num Z)) = ([10, 10] : List ℝ).map num) ∧
    ∃ m se : ℝ,
      (mc_price_european Real.exp Real.sqrt (counterSampler ℝ) (num 100) (num 90) (num 0)
        (num 0) (num 1) 2 0 true).price = num m ∧
      (mc_price_european Real.exp Real.sqrt (counterSampler ℝ) (num 100) (num 90) (num 0)
        (num 0) (num 1) 2 0 true).std_error = num se ∧
      ((2 : Nat) : ℝ) * se ^ 2 =
        (1 / ((2 : Nat) : ℝ)) * (([10, 10] : List ℝ).map (fun d => (d - m) ^ 2)).sum ∧
      se = Real.sqrt (two_pass_variance ([10, 10] : List ℝ)) / Real.sqrt (2 : Nat) ∧
      se = Real.sqrt (welford_variance ([10, 10] : List ℝ)) / Real.sqrt (2 : Nat) :=
  have h : (normal_draws (counterSampler ℝ) 2 ((counterSampler ℝ).seed_rng 0)).map (fun Z =>
        discounted_payoff Real.exp (num 100) (num 90) (disc_factor Real.exp (num 0) (num 1))
          (drift (num 0) (num 0) (num 1)) (diffusion_scale Real.sqrt (num 0) (num 1)) true
          (num Z)) = ([10, 10] : List ℝ).map num := by
    simp only [normal_draws, List.map_cons, List.map_nil,
      discounted_payoff_real 100 90 0 0 1 _ true (le_of_lt one_pos)]
    norm_num
  ⟨⟨by decide, h⟩,
    mc_std_error_eq_two_pass_and_welford (counterSampler ℝ) (num 100) (num 90) (num 0) (num 0)
      (num 1) 2 0 true [10, 10] (by decide) h⟩

/-- C16, the claim as stated fails: with maturity `-1` (spot 100, strike 90, rate 0.05,
volatility 0.2, one path, seed 0) `std::sqrt(T)` is NaN, and so are the call price and the put
price: their difference is no number, so it is not the number the parity gives. -/
theorem mc_parity_neg_maturity_is_nan :
    (mc_price_european Real.exp Real.sqrt (counterSampler ℝ) (num 100) (num 90) (num 0.05)
      (num 0.2) (num (-1)) 1 0 true).price = nan ∧
    (mc_price_european Real.exp Real.sqrt (counterSampler ℝ) (num 100) (num 90) (num 0.05)
      (num 0.2) (num (-1)) 1 0 false).price = nan ∧
    ¬ ∃ price_call price_put : ℝ,
      (mc_price_european Real.exp Real.sqrt (counterSampler ℝ) (num 100) (num 90) (num 0.05)
        (num 0.2) (num (-1)) 1 0 true).price = num price_call ∧
      (mc_price_european Real.exp Real.sqrt (counterSampler ℝ) (num 100) (num 90) (num 0.05)
        (num 0.2) (num (-1)) 1 0 false).price = num price_put ∧
      price_call - price_put =
        Real.exp (-0.05 * (-1)) *
          ((1 / ((1 : Nat) : ℝ)) * ((normal_draws (counterSampler ℝ) 1
            ((counterSampler ℝ).seed_rng 0)).map (fun Z =>
            100 * Real.exp ((0.05 - 0.5 * 0.2 ^ 2) * (-1) + 0.2 * Real.sqrt (-1) * Z))).sum -
            90) := by
  have hc := price_neg_maturity (counterSampler ℝ) 100 90 0.05 0.2 (-1) 1 0 true (le_refl 1)
    (by norm_num)
  have hp := price_neg_maturity (counterSampler ℝ) 100 90 0.05 0.2 (-1) 1 0 false (le_refl 1)
    (by norm_num)
  refine ⟨hc, hp, ?_⟩
  rintro ⟨pc, pp, h1, _, _⟩
  rw [hc] at h1
  cases h1

/-- C16, amended: pathwise put-call parity.  For `n ≥ 1` paths and a maturity `T ≥ 0`, the call
and the put priced with the same inputs run on the same draws `Z_1..Z_n`, and
`price_call - price_put = exp(-r*T) * ((1/n) * Σ S_T,i - K)` with
`S_T,i = S0 * exp((r - 0.5*sigma^2)*T + sigma*sqrt(T)*Z_i)`. -/
theorem mc_put_call_parity_pathwise (smp : Sampler ℝ G) (S0 K r sigma T : ℝ)
    (n_paths seed : Nat) (hn : 1 ≤ n_paths) (hT : 0 ≤ T) :
    ∃ price_call price_put : ℝ,
      (mc_price_european Real.exp Real.sqrt smp (num S0) (num K) (num r) (num sigma) (num T)
        n_paths seed true).price = num price_call ∧
      (mc_price_european Real.exp Real.sqrt smp (num S0) (num K) (num r) (num sigma) (num T)
        n_paths seed false).price = num price_put ∧
      price_call - price_put =
        Real.exp (-r * T) *
          ((1 / (n_paths : ℝ)) * ((normal_draws smp n_paths (smp.seed_rng seed)).map (fun Z =>
            S0 * Real.exp ((r - 0.5 * sigma ^ 2) * T + sigma * Real.sqrt T * Z))).sum - K) := by
  have hn0 : (n_paths : ℝ) ≠ 0 := by positivity
  refine ⟨_, _, call_price_real smp S0 K r sigma T n_paths seed hn hT,
    put_price_real smp S0 K r sigma T n_paths seed hn hT, ?_⟩
  rw [← sub_div, sum_call_sub_sum_put (Real.exp (-r * T)) K
    (fun Z => S0 * Real.exp ((r - 0.5 * sigma ^ 2) * T + sigma * Real.sqrt T * Z)),
    normal_draws_length]
  field_simp

/-- Witness of C16: two paths with spot `100`, strike `90`, rate `0.05`, volatility `0.2` and
maturity `1`. -/
theorem mc_put_call_parity_pathwise_witness :
    (1 ≤ 2 ∧ (0 : ℝ) ≤ 1) ∧
    ∃ price_call price_put : ℝ,
      (mc_price_european Real.exp Real.sqrt (counterSampler ℝ) (num 100) (num 90) (num 0.05)
        (num 0.2) (num 1) 2 0 true).price = num price_call ∧
      (mc_price_european Real.exp Real.sqrt (counterSampler ℝ) (num 100) (num 90) (num 0.05)
        (num 0.2) (num 1) 2 0 false).price = num price_put ∧
      price_call - price_put =
        Real.exp (-0.05 * 1) *
          ((1 / ((2 : Nat) : ℝ)) * ((normal_draws (counterSampler ℝ) 2
            ((counterSampler ℝ).seed_rng 0)).map (fun Z =>
            100 * Real.exp ((0.05 - 0.5 * 0.2 ^ 2) * 1 + 0.2 * Real.sqrt 1 * Z))).sum - 90) :=
  ⟨⟨by decide, by norm_num⟩,
    mc_put_call_parity_pathwise (counterSampler ℝ) 100 90 0.05 0.2 1 2 0 (by decide)
      (by norm_num)⟩

/-- C17, the claim as stated fails: with maturity `-1` (spot 100, rate 0.05, volatility 0.2,
one path, seed 0) `std::sqrt(T)` is NaN and so is the call price, for strike `90` as for strike
`100`: the two prices are not numbers in the order claimed. -/
theorem mc_call_price_neg_maturity_is_nan :
    (mc_price_european Real.exp Real.sqrt (counterSampler ℝ) (num 100) (num 90) (num 0.05)
      (num 0.2) (num (-1)) 1 0 true).price = nan ∧
    ¬ ∃ c1 c2 : ℝ,
      (mc_price_european Real.exp Real.sqrt (counterSampler ℝ) (num 100) (num 90) (num 0.05)
        (num 0.2) (num (-1)) 1 0 true).price = num c1 ∧
      (mc_price_european Real.exp Real.sqrt (counterSampler ℝ) (num 100) (num 100) (num 0.05)
        (num 0.2) (num (-1)) 1 0 true).price = num c2 ∧
      c2 ≤ c1 := by
  have h := price_neg_maturity (counterSampler ℝ) 100 90 0.05 0.2 (-1) 1 0 true (le_refl 1)
    (by norm_num)
  refine ⟨h, ?_⟩
  rintro ⟨c1, c2, h1, _, _⟩
  rw [h] at h1
  cases h1

/-- C17, amended: for fixed `S0`, `r`, `sigma`, seed, `n_paths ≥ 1` and a maturity `T ≥ 0`,
and every `K1 ≤ K2`, the call price with strike `K1` is `≥` the call price with strike `K2`,
and the put price with strike `K1` is `≤` the put price with strike `K2`. -/
theorem mc_price_monotone_in_strike (smp : Sampler ℝ G) (S0 K1 K2 r sigma T : ℝ)
    (n_paths seed : Nat) (hn : 1 ≤ n_paths) (hT : 0 ≤ T) (hK : K1 ≤ K2) :
    ∃ c1 c2 p1 p2 : ℝ,
      (mc_price_european Real.exp Real.sqrt smp (num S0) (num K1) (num r) (num sigma) (num T)
        n_paths seed true).price = num c1 ∧
      (mc_price_european Real.exp Real.sqrt smp (num S0) (num K2) (num r) (num sigma) (num T)
        n_paths seed true).price = num c2 ∧
      (mc_price_european Real.exp Real.sqrt smp (num S0) (num K1) (num r) (num sigma) (num T)
        n_paths seed false).price = num p1 ∧
      (mc_price_european Real.exp Real.sqrt smp (num S0) (num K2) (num r) (num sigma) (num T)
        n_paths seed false).price = num p2 ∧
      c2 ≤ c1 ∧ p1 ≤ p2 := by
  have hnn : (0 : ℝ) ≤ (n_paths : ℝ) := Nat.cast_nonneg n_paths
  have hA : 0 ≤ Real.exp (-r * T) := (Real.exp_pos _).le
  refine ⟨_, _, _, _, call_price_real smp S0 K1 r sigma T n_paths seed hn hT,
    call_price_real smp S0 K2 r sigma T n_paths seed hn hT,
    put_price_real smp S0 K1 r sigma T n_paths seed hn hT,
    put_price_real smp S0 K2 r sigma T n_paths seed hn hT, ?_, ?_⟩
  · apply div_le_div_of_nonneg_right _ hnn
    apply List.sum_le_sum
    intro z _
    exact mul_le_mul_of_nonneg_left (max_le_max (by linarith) (le_refl 0)) hA
  · apply div_le_div_of_nonneg_right _ hnn
    apply List.sum_le_sum
    intro z _
    exact mul_le_mul_of_nonneg_left (max_le_max (by linarith) (le_refl 0)) hA

/-- Witness of C17: two paths, strikes `90 ≤ 100`, maturity `1`. -/
theorem mc_price_monotone_in_strike_witness :
    (1 ≤ 2 ∧ (0 : ℝ) ≤ 1 ∧ (90 : ℝ) ≤ 100) ∧
    ∃ c1 c2 p1 p2 : ℝ,
      (mc_price_european Real.exp Real.sqrt (counterSampler ℝ) (num 100) (num 90) (num 0.05)
        (num 0.2) (num 1) 2 0 true).price = num c1 ∧
      (mc_price_european Real.exp Real.sqrt (counterSampler ℝ) (num 100) (num 100) (num 0.05)
        (num 0.2) (num 1) 2 0 true).price = num c2 ∧
      (mc_price_european Real.exp Real.sqrt (counterSampler ℝ) (num 100) (num 90) (num 0.05)
        (num 0.2) (num 1) 2 0 false).price = num p1 ∧
      (mc_price_european Real.exp Real.sqrt (counterSampler ℝ) (num 100) (num 100) (num 0.05)
        (num 0.2) (num 1) 2 0 false).price = num p2 ∧
      c2 ≤ c1 ∧ p1 ≤ p2 :=
  ⟨⟨by decide, by norm_num, by norm_num⟩,
    mc_price_monotone_in_strike (counterSampler ℝ) 100 90 100 0.05 0.2 1 2 0 (by decide)
      (by norm_num) (by norm_num)⟩

/-- C18, the claim as stated fails: with maturity `-1` (spot 100, strike 100, rate 0.05,
volatility 0.2, one path, seed 0) `std::sqrt(T)` is NaN and so is the put price, which is then
no number in `[0, K * exp(-r*T)]`. -/
theorem mc_put_price_neg_maturity_is_nan :
    (mc_price_european Real.exp Real.sqrt (counterSampler ℝ) (num 100) (num 100) (num 0.05)
      (num 0.2) (num (-1)) 1 0 false).price = nan ∧
    ¬ ∃ p : ℝ,
      (mc_price_european Real.exp Real.sqrt (counterSampler ℝ) (num 100) (num 100) (num 0.05)
        (num 0.2) (num (-1)) 1 0 false).price = num p ∧
      0 ≤ p ∧ p ≤ 100 * Real.exp (-0.05 * (-1)) := by
  have h := price_neg_maturity (counterSampler ℝ) 100 100 0.05 0.2 (-1) 1 0 false (le_refl 1)
    (by norm_num)
  refine ⟨h, ?_⟩
  rintro ⟨p, h1, _⟩
  rw [h] at h1
  cases h1

/-- C18, amended: for a put with `S0 ≥ 0`, `K ≥ 0`, `n_paths ≥ 1` and a maturity `T ≥ 0`, every
discounted payoff lies in `[0, K * exp(-r*T)]` and the price returned satisfies
`0 ≤ price ≤ K * exp(-r*T)`, for every seed, rate and volatility. -/
theorem mc_put_price_bounds (smp : Sampler ℝ G) (S0 K r sigma T : ℝ) (n_paths seed : Nat)
    (hS0 : 0 ≤ S0) (hK : 0 ≤ K) (hn : 1 ≤ n_paths) (hT : 0 ≤ T) :
    (∀ Z ∈ normal_draws smp n_paths (smp.seed_rng seed),
      ∃ d : ℝ,
        discounted_payoff Real.exp (num S0) (num K) (disc_factor Real.exp (num r) (num T))
          (drift (num r) (num sigma) (num T)) (diffusion_scale Real.sqrt (num sigma) (num T))
          false (num Z) = num d ∧
        0 ≤ d ∧ d ≤ K * Real.exp (-r * T)) ∧
    ∃ p : ℝ,
      (mc_price_european Real.exp Real.sqrt smp (num S0) (num K) (num r) (num sigma) (num T)
        n_paths seed false).price = num p ∧
      0 ≤ p ∧ p ≤ K * Real.exp (-r * T) := by
  have hn0 : (0 : ℝ) < (n_paths : ℝ) := by positivity
  have hA : 0 ≤ Real.exp (-r * T) := (Real.exp_pos _).le
  have hd : ∀ z : ℝ,
      0 ≤ Real.exp (-r * T) *
        Max.max (K - S0 * Real.exp ((r - 0.5 * sigma ^ 2) * T + sigma * Real.sqrt T * z)) 0 ∧
      Real.exp (-r * T) *
        Max.max (K - S0 * Real.exp ((r - 0.5 * sigma ^ 2) * T + sigma * Real.sqrt T * z)) 0 ≤
        K * Real.exp (-r * T) := by
    intro z
    have hST : 0 ≤ S0 * Real.exp ((r - 0.5 * sigma ^ 2) * T + sigma * Real.sqrt T * z) :=
      mul_nonneg hS0 (Real.exp_pos _).le
    constructor
    · exact mul_nonneg hA (le_max_right _ _)
    · rw [mul_comm K]
      exact mul_le_mul_of_nonneg_left (max_le (by linarith) hK) hA
  constructor
  · intro Z _
    exact ⟨_, (discounted_payoff_real S0 K r sigma T Z false hT).trans rfl, hd Z⟩
  · refine ⟨_, put_price_real smp S0 K r sigma T n_paths seed hn hT, ?_, ?_⟩
    · apply div_nonneg _ hn0.le
      apply List.sum_nonneg
      intro x hx
      obtain ⟨z, _, rfl⟩ := List.mem_map.mp hx
      exact (hd z).1
    · rw [div_le_iff₀ hn0]
      have hle := List.sum_le_sum (l := normal_draws smp n_paths (smp.seed_rng seed))
        (f := fun z => Real.exp (-r * T) *
          Max.max (K - S0 * Real.exp ((r - 0.5 * sigma ^ 2) * T + sigma * Real.sqrt T * z)) 0)
        (g := fun _ => K * Real.exp (-r * T)) (fun z _ => (hd z).2)
      have hconst : ((normal_draws smp n_paths (smp.seed_rng seed)).map
          (fun _ => K * Real.exp (-r * T))).sum = K * Real.exp (-r * T) * n_paths := by
        simp [List.map_const', List.sum_replicate, normal_draws_length, mul_comm]
      linarith

/-- Witness of C18: two paths of a put with spot `100`, strike `100` and maturity `1`. -/
theorem mc_put_price_bounds_witness :
    ((0 : ℝ) ≤ 100 ∧ (0 : ℝ) ≤ 100 ∧ 1 ≤ 2 ∧ (0 : ℝ) ≤ 1) ∧
    ∃ p : ℝ,
      (mc_price_european Real.exp Real.sqrt (counterSampler ℝ) (num 100) (num 100) (num 0.05)
        (num 0.2) (num 1) 2 0 false).price = num p ∧
      0 ≤ p ∧ p ≤ 100 * Real.exp (-0.05 * 1) :=
  ⟨⟨by norm_num, by norm_num, by decide, by norm_num⟩,
    (mc_put_price_bounds (counterSampler ℝ) 100 100 0.05 0.2 1 2 0 (by norm_num) (by norm_num)
      (by decide) (by norm_num)).2⟩

end Claims

end MCCore
